import Mathlib

/-!
# A linked-list queue of strings (`queue.c`)

Shallow embedding of the queue of `queue.c` over an explicit heap.

* Pointers are `Option Addr`: `none` is `NULL`, `some a` is the address `a`.
* The heap maps an address to the block that lives there (`none`: nothing is
  allocated at that address, either never allocated or already freed).
* Every access through a pointer is checked: reading or writing a block that
  is not live, or that has another type, is undefined behaviour in C and is
  the result `Except.error Fault.invalidAccess` here.
* `malloc` is driven by its environment: each call is given the answer of the
  allocator (`none`: out of memory, `some p`: the block at `p`).  An answer
  that is not a free 64-bit address is no possible answer of `malloc`, and is
  read as out of memory.
* `size_t` is 64 bits wide: arithmetic on it is taken modulo `2 ^ 64`.
* The two loops (`queue_free`, `queue_reverse`) take fuel, one unit for each
  iteration of the loop body.
-/

namespace Queue

/-- Addresses of heap blocks. -/
abbrev Addr := Nat

/-- The number of values of `size_t`. -/
abbrev SIZE_MOD : Nat := 2 ^ 64

/-- Linked-list element `list_ele_t`: the string pointer and the link. -/
structure list_ele_t where
  value : Option Addr
  next : Option Addr
deriving DecidableEq

/-- Queue header `queue_t`. -/
structure queue_t where
  head : Option Addr
  tail : Option Addr
  size : Nat
deriving DecidableEq

/-- What a live heap block holds: a queue header, a list element, or an array
of characters. -/
inductive Block where
  | queue (q : queue_t)
  | ele (e : list_ele_t)
  | chars (bytes : List Nat)
deriving DecidableEq

/-- The heap: the live block at each address, if any. -/
abbrev Heap := Addr → Option Block

/-- Ways in which a run has no defined result. -/
inductive Fault where
  | invalidAccess
  | outOfFuel
deriving DecidableEq

/-- The heap with nothing allocated. -/
def emptyHeap : Heap := fun _ => none

/-! ## The C library -/

/-- Result of `malloc` when the allocator answers `r`: `NULL` when it has no
memory, the address otherwise, which is a 64-bit address with no live block. -/
def malloc (h : Heap) (r : Option Addr) : Option Addr :=
  match r with
  | none => none
  | some p => if p < SIZE_MOD ∧ (h p).isNone then some p else none

/-- The call `free(p)`: nothing for `NULL`, releases the live block at `p`;
releasing what is not live is undefined. -/
def free (h : Heap) (p : Option Addr) : Except Fault Heap :=
  match p with
  | none => .ok h
  | some a =>
    match h a with
    | none => .error .invalidAccess
    | some _ => .ok (Function.update h a none)

/-- The characters of the C string held by a sequence of bytes: those before
the first zero byte. -/
def text (s : List Nat) : List Nat := s.takeWhile (fun b => b != 0)

/-- The library function `strlen`. -/
def strlen (s : List Nat) : Nat := (text s).length

/-- The call `strcpy(dst, s)`: writes the characters of `s` and a terminator
to the front of the character array at `dst`. -/
def strcpy (h : Heap) (dst : Option Addr) (s : List Nat) : Except Fault Heap :=
  match dst with
  | none => .error .invalidAccess
  | some a =>
    match h a with
    | some (.chars old) =>
      if strlen s + 1 ≤ old.length then
        .ok (Function.update h a (some (.chars (text s ++ 0 :: old.drop (strlen s + 1)))))
      else .error .invalidAccess
    | _ => .error .invalidAccess

/-- The call `strncpy(buf, src, n)` on the memory `buf` of the caller: exactly
`n` bytes are written, the characters of `src` first and zero bytes after
them. -/
def strncpy (buf : Nat → Nat) (src : List Nat) (n : Nat) : Nat → Nat :=
  fun i => if i < n then (text src).getD i 0 else buf i

/-! ## Typed access to heap blocks -/

/-- Reads the queue header that `q` points to. -/
def loadQueue (h : Heap) (q : Option Addr) : Except Fault queue_t :=
  match q with
  | none => .error .invalidAccess
  | some a =>
    match h a with
    | some (.queue x) => .ok x
    | _ => .error .invalidAccess

/-- Reads the list element that `p` points to. -/
def loadEle (h : Heap) (p : Option Addr) : Except Fault list_ele_t :=
  match p with
  | none => .error .invalidAccess
  | some a =>
    match h a with
    | some (.ele x) => .ok x
    | _ => .error .invalidAccess

/-- Reads the character array that `p` points to. -/
def loadChars (h : Heap) (p : Option Addr) : Except Fault (List Nat) :=
  match p with
  | none => .error .invalidAccess
  | some a =>
    match h a with
    | some (.chars x) => .ok x
    | _ => .error .invalidAccess

/-- Writes a queue header through `q`, which must point to a live header. -/
def storeQueue (h : Heap) (q : Option Addr) (x : queue_t) : Except Fault Heap :=
  match q with
  | none => .error .invalidAccess
  | some a =>
    match h a with
    | some (.queue _) => .ok (Function.update h a (some (.queue x)))
    | _ => .error .invalidAccess

/-- Writes a list element through `p`, which must point to a live element. -/
def storeEle (h : Heap) (p : Option Addr) (x : list_ele_t) : Except Fault Heap :=
  match p with
  | none => .error .invalidAccess
  | some a =>
    match h a with
    | some (.ele _) => .ok (Function.update h a (some (.ele x)))
    | _ => .error .invalidAccess

/-- The assignment `p->next = n`. -/
def setNext (h : Heap) (p : Option Addr) (n : Option Addr) : Except Fault Heap :=
  match loadEle h p with
  | .error e => .error e
  | .ok x => storeEle h p { x with next := n }

/-- The assignment `p->value = v`. -/
def setValue (h : Heap) (p : Option Addr) (v : Option Addr) : Except Fault Heap :=
  match loadEle h p with
  | .error e => .error e
  | .ok x => storeEle h p { x with value := v }

/-! ## The queue operations -/

/-- Function `queue_new`: a new empty queue, or `NULL` when `malloc` fails. -/
def queue_new (h : Heap) (r : Option Addr) : Option Addr × Heap :=
  match malloc h r with
  | none => (none, h)
  | some q => (some q, Function.update h q (some (.queue { head := none, tail := none, size := 0 })))

/-- Function `queue_insert_head`.  `r1` and `r2` are the answers of the
allocator to the two calls of `malloc`, for the element and for the copy of
the string.  A fresh element has no defined fields: they are `NULL` here and
are not read before they are assigned. -/
def queue_insert_head (h : Heap) (q : Option Addr) (s : List Nat) (r1 r2 : Option Addr) :
    Except Fault (Bool × Heap) :=
  match q with
  | none => .ok (false, h)
  | some _ =>
    match malloc h r1 with
    | none => .ok (false, h)
    | some newh => do
      let h1 : Heap := Function.update h newh (some (.ele { value := none, next := none }))
      match malloc h1 r2 with
      | none =>
        let h2 ← free h1 (some newh)
        pure (false, h2)
      | some v =>
        let h2 : Heap := Function.update h1 v (some (.chars (List.replicate (strlen s + 1) 0)))
        let h3 ← setValue h2 (some newh) (some v)
        let h4 ← strcpy h3 (some v) s
        -- newh->next = q->head;
        let q0 ← loadQueue h4 q
        let h5 ← setNext h4 (some newh) q0.head
        -- q->head = newh;
        let q1 ← loadQueue h5 q
        let h6 ← storeQueue h5 q { q1 with head := some newh }
        -- (q->size)++;
        let q2 ← loadQueue h6 q
        let h7 ← storeQueue h6 q { q2 with size := (q2.size + 1) % SIZE_MOD }
        -- if (q->size == 1) q->tail = q->head;
        let q3 ← loadQueue h7 q
        if q3.size = 1 then
          let h8 ← storeQueue h7 q { q3 with tail := q3.head }
          pure (true, h8)
        else
          pure (true, h7)

/-- Function `queue_insert_tail`, with the answers `r1` and `r2` of the
allocator as in `queue_insert_head`. -/
def queue_insert_tail (h : Heap) (q : Option Addr) (s : List Nat) (r1 r2 : Option Addr) :
    Except Fault (Bool × Heap) :=
  match q with
  | none => .ok (false, h)
  | some _ =>
    match malloc h r1 with
    | none => .ok (false, h)
    | some newt => do
      -- newt->next = NULL;
      let h1 : Heap := Function.update h newt (some (.ele { value := none, next := none }))
      match malloc h1 r2 with
      | none =>
        let h2 ← free h1 (some newt)
        pure (false, h2)
      | some v =>
        let h2 : Heap := Function.update h1 v (some (.chars (List.replicate (strlen s + 1) 0)))
        let h3 ← setValue h2 (some newt) (some v)
        let h4 ← strcpy h3 (some v) s
        let q0 ← loadQueue h4 q
        let h6 ←
          (match q0.tail with
          | none => do
            -- q->tail = newt; q->head = newt;
            let h5 ← storeQueue h4 q { q0 with tail := some newt }
            let q1 ← loadQueue h5 q
            storeQueue h5 q { q1 with head := some newt }
          | some t => do
            -- q->tail->next = newt; q->tail = newt;
            let h5 ← setNext h4 (some t) (some newt)
            let q1 ← loadQueue h5 q
            storeQueue h5 q { q1 with tail := some newt })
        -- (q->size)++;
        let q2 ← loadQueue h6 q
        let h7 ← storeQueue h6 q { q2 with size := (q2.size + 1) % SIZE_MOD }
        pure (true, h7)

/-- Function `queue_remove_head`.  `buf` is the memory of the caller behind
the pointer `buf` (`none` for `NULL`), indexed from that pointer, and
`bufsize` the stated size.  Returns the result, the heap and the memory of
the caller. -/
def queue_remove_head (h : Heap) (q : Option Addr) (buf : Option (Nat → Nat)) (bufsize : Nat) :
    Except Fault (Bool × Heap × Option (Nat → Nat)) :=
  match q with
  | none => .ok (false, h, buf)
  | some _ => do
    let q0 ← loadQueue h q
    match q0.head with
    | none => pure (false, h, buf)
    | some _ =>
      let buf1 ←
        (match buf with
        | none => (pure none : Except Fault (Option (Nat → Nat)))
        | some b => do
          -- strncpy(buf, q->head->value, bufsize-1); buf[bufsize - 1] = 0;
          let e ← loadEle h q0.head
          let src ← loadChars h e.value
          let b1 := strncpy b src ((bufsize + SIZE_MOD - 1) % SIZE_MOD)
          pure (some (Function.update b1 ((bufsize + SIZE_MOD - 1) % SIZE_MOD) 0)))
      -- tmp = q->head; free(tmp->value);
      let tmp := q0.head
      let e ← loadEle h tmp
      let h1 ← free h e.value
      -- q->head = q->head->next;
      let q1 ← loadQueue h1 q
      let e1 ← loadEle h1 q1.head
      let h2 ← storeQueue h1 q { q1 with head := e1.next }
      -- (q->size)--;
      let q2 ← loadQueue h2 q
      let h3 ← storeQueue h2 q { q2 with size := (q2.size + SIZE_MOD - 1) % SIZE_MOD }
      -- free(tmp);
      let h4 ← free h3 tmp
      pure (true, h4, buf1)

/-- Function `queue_size`. -/
def queue_size (h : Heap) (q : Option Addr) : Except Fault Nat :=
  match q with
  | none => .ok 0
  | some _ => do
    let q0 ← loadQueue h q
    match q0.head with
    | none => pure 0
    | some _ => pure q0.size

/-- The loop of `queue_reverse`, on the variables `prev`, `curr` and `next`;
one unit of fuel for each run of the body.  Returns the heap and the final
`prev` and `curr`. -/
def reverse_loop : Nat → Heap → Option Addr → Option Addr → Option Addr →
    Except Fault (Heap × Option Addr × Option Addr)
  | _, h, prev, curr, none => .ok (h, prev, curr)
  | 0, _, _, _, some _ => .error .outOfFuel
  | fuel + 1, h, prev, curr, some n => do
    -- curr->next = prev; prev = curr; curr = next; next = next->next;
    let h1 ← setNext h curr prev
    let e ← loadEle h1 (some n)
    reverse_loop fuel h1 curr (some n) e.next

/-- Function `queue_reverse`. -/
def queue_reverse (fuel : Nat) (h : Heap) (q : Option Addr) : Except Fault Heap :=
  match q with
  | none => .ok h
  | some _ => do
    let q0 ← loadQueue h q
    match q0.head with
    | none => pure h
    | some _ =>
      -- q->tail = q->head;
      let h1 ← storeQueue h q { q0 with tail := q0.head }
      let q1 ← loadQueue h1 q
      let e ← loadEle h1 q1.head
      let (h2, prev, curr) ← reverse_loop fuel h1 none q1.head e.next
      -- curr->next = prev; q->head = curr;
      let h3 ← setNext h2 curr prev
      let q2 ← loadQueue h3 q
      storeQueue h3 q { q2 with head := curr }

/-- The loop of `queue_free` on the variable `p`; one unit of fuel for each
run of the body. -/
def free_loop : Nat → Heap → Option Addr → Except Fault Heap
  | _, h, none => .ok h
  | 0, _, some _ => .error .outOfFuel
  | fuel + 1, h, some p => do
    -- tmp = p; p = p->next; free(tmp->value); free(tmp);
    let e ← loadEle h (some p)
    let h1 ← free h e.value
    let h2 ← free h1 (some p)
    free_loop fuel h2 e.next

/-- Function `queue_free`. -/
def queue_free (fuel : Nat) (h : Heap) (q : Option Addr) : Except Fault Heap :=
  match q with
  | none => .ok h
  | some _ => do
    let q0 ← loadQueue h q
    let h1 ← free_loop fuel h q0.head
    free h1 q

/-! ## The data model -/

/-- One element of a chain: the address of its `list_ele_t`, the address of
the character array it owns, and the bytes of that array. -/
structure Cell where
  node : Addr
  vptr : Addr
  bytes : List Nat
deriving DecidableEq

/-- Address of the first element of a chain, `NULL` for the empty chain. -/
def first (cells : List Cell) : Option Addr := (cells.head?).map Cell.node

/-- Address of the last element of a chain, `NULL` for the empty chain. -/
def last (cells : List Cell) : Option Addr := (cells.getLast?).map Cell.node

/-- The elements `cells` are live and linked in this order: each `next` is
the address of the following element, that of the last one is `NULL`, and
each `value` is the address of a live character array. -/
def linked (h : Heap) : List Cell → Prop
  | [] => True
  | c :: cs =>
    h c.node = some (.ele { value := some c.vptr, next := first cs }) ∧
    h c.vptr = some (.chars c.bytes) ∧ linked h cs

/-- The element sequence of a chain: the strings of its elements in order. -/
def elems (cells : List Cell) : List (List Nat) := cells.map (fun c => text c.bytes)

/-- The header `x` lives at `q`, and `cells` are exactly the elements reached
from `x.head` by following `next`; `x.size` is their number; no element and no
string occurs twice; addresses are 64 bits wide.  No condition on `x.tail`. -/
structure Chained (h : Heap) (q : Addr) (x : queue_t) (cells : List Cell) : Prop where
  header : h q = some (.queue x)
  head_eq : x.head = first cells
  links : linked h cells
  count : x.size = cells.length
  nodes_nodup : (cells.map Cell.node).Nodup
  values_nodup : (cells.map Cell.vptr).Nodup
  q_lt : q < SIZE_MOD
  nodes_lt : ∀ c ∈ cells, c.node < SIZE_MOD

/-- The invariants of the data model: `Chained`, and `x.tail` is the last
element of the chain (`NULL` when there is none). -/
def WF (h : Heap) (q : Addr) (x : queue_t) (cells : List Cell) : Prop :=
  Chained h q x cells ∧ x.tail = last cells

/-! ## Drivers -/

/-- One insertion request: at the head or at the tail, the string, and the
addresses the allocator answers for the element and for the string. -/
structure Ins where
  atHead : Bool
  s : List Nat
  node : Addr
  val : Addr
deriving DecidableEq

/-- The call of `queue_insert_head` or `queue_insert_tail` for a request. -/
def insert (h : Heap) (q : Option Addr) (o : Ins) : Except Fault (Bool × Heap) :=
  if o.atHead then queue_insert_head h q o.s (some o.node) (some o.val)
  else queue_insert_tail h q o.s (some o.node) (some o.val)

/-- Runs the requests in order; the flag tells whether every call returned
`true`. -/
def run_inserts (h : Heap) (q : Option Addr) : List Ins → Except Fault (Bool × Heap)
  | [] => .ok (true, h)
  | o :: os =>
    match insert h q o with
    | .error e => .error e
    | .ok (b, h1) =>
      match run_inserts h1 q os with
      | .error e => .error e
      | .ok (bs, h2) => .ok (b && bs, h2)

/-- The addresses handed out by the allocator for a list of requests. -/
def answers (ops : List Ins) : List Addr := ops.flatMap (fun o => [o.node, o.val])

/-- The reference list of a sequence of requests: a string inserted at the
head is put in front, one inserted at the tail is put at the end. -/
def reference (acc : List (List Nat)) (ops : List Ins) : List (List Nat) :=
  ops.foldl (fun l o => if o.atHead then text o.s :: l else l ++ [text o.s]) acc

/-- The string found in the first `c` bytes of the memory `b`. -/
def readback (b : Nat → Nat) (c : Nat) : List Nat := text ((List.range c).map b)

/-- Calls `queue_remove_head` `k` times with a buffer of size `c`; for each
call, the string read back from the buffer if the call returned `true`, and
`none` if it returned `false`.  Returns also the final heap. -/
def drain (c : Nat) : Nat → Heap → Option Addr → (Nat → Nat) →
    Except Fault (List (Option (List Nat)) × Heap)
  | 0, h, _, _ => .ok ([], h)
  | k + 1, h, q, b =>
    match queue_remove_head h q (some b) c with
    | .error e => .error e
    | .ok (ok, h1, ob) =>
      match drain c k h1 q (ob.getD b) with
      | .error e => .error e
      | .ok (rs, h2) => .ok ((if ok then some (readback (ob.getD b) c) else none) :: rs, h2)

/-- The condition under which an insertion fails: the queue pointer is `NULL`,
or the call of `malloc` for the element fails, or that call succeeds (the
fresh element then lives at `p`) and the call of `malloc` for the copy of the
string fails. -/
def insertFails (h : Heap) (q : Option Addr) (r1 r2 : Option Addr) : Prop :=
  q = none ∨ malloc h r1 = none ∨
    ∃ p, malloc h r1 = some p ∧
      malloc (Function.update h p (some (.ele { value := none, next := none }))) r2 = none

/-- The heap after a successful `queue_insert_head`. -/
def heapInsertHead (h : Heap) (q p v : Addr) (x : queue_t) (s : List Nat) : Heap := fun a =>
  if a = q then some (.queue ⟨some p, if (x.size + 1) % SIZE_MOD = 1 then some p else x.tail,
      (x.size + 1) % SIZE_MOD⟩)
  else if a = p then some (.ele ⟨some v, x.head⟩)
  else if a = v then some (.chars (text s ++ [0]))
  else h a

/-- The memory of the caller after the copy made by `queue_remove_head` of a
string held in `bytes` into a buffer of stated size `c`. -/
def bufAfter (bytes : List Nat) (c : Nat) (b : Nat → Nat) : Nat → Nat :=
  Function.update (strncpy b bytes ((c + SIZE_MOD - 1) % SIZE_MOD))
    ((c + SIZE_MOD - 1) % SIZE_MOD) 0

/-! ## The loops with a record of their work -/

/-- The loop of `queue_reverse`, as `reverse_loop`, which also returns the
pointers through which `next` was assigned, one for each run of the body, in
order. -/
def reverse_loop_log : Nat → Heap → Option Addr → Option Addr → Option Addr →
    Except Fault (Heap × Option Addr × Option Addr × List (Option Addr))
  | _, h, prev, curr, none => .ok (h, prev, curr, [])
  | 0, _, _, _, some _ => .error .outOfFuel
  | fuel + 1, h, prev, curr, some n => do
    -- curr->next = prev; prev = curr; curr = next; next = next->next;
    let h1 ← setNext h curr prev
    let e ← loadEle h1 (some n)
    let r ← reverse_loop_log fuel h1 curr (some n) e.next
    pure (r.1, r.2.1, r.2.2.1, curr :: r.2.2.2)

/-- Function `queue_reverse`, as above, which also returns the number of runs
of the loop body and all the pointers through which `next` was assigned, those
of the loop and the one after the loop. -/
def queue_reverse_log (fuel : Nat) (h : Heap) (q : Option Addr) :
    Except Fault (Heap × Nat × List (Option Addr)) :=
  match q with
  | none => .ok (h, 0, [])
  | some _ => do
    let q0 ← loadQueue h q
    match q0.head with
    | none => pure (h, 0, [])
    | some _ =>
      -- q->tail = q->head;
      let h1 ← storeQueue h q { q0 with tail := q0.head }
      let q1 ← loadQueue h1 q
      let e ← loadEle h1 q1.head
      let r ← reverse_loop_log fuel h1 none q1.head e.next
      -- curr->next = prev; q->head = curr;
      let h3 ← setNext r.1 r.2.2.1 r.2.1
      let q2 ← loadQueue h3 q
      let h4 ← storeQueue h3 q { q2 with head := r.2.2.1 }
      pure (h4, r.2.2.2.length, r.2.2.2 ++ [r.2.2.1])

/-- The loop of `queue_free`, as `free_loop`, which also returns the elements
visited (the values of `tmp`), one for each run of the body, in order. -/
def free_loop_log : Nat → Heap → Option Addr → Except Fault (Heap × List Addr)
  | _, h, none => .ok (h, [])
  | 0, _, some _ => .error .outOfFuel
  | fuel + 1, h, some p => do
    -- tmp = p; p = p->next; free(tmp->value); free(tmp);
    let e ← loadEle h (some p)
    let h1 ← free h e.value
    let h2 ← free h1 (some p)
    let r ← free_loop_log fuel h2 e.next
    pure (r.1, p :: r.2)

/-- Function `queue_free`, as above, which also returns the elements visited
by its loop. -/
def queue_free_log (fuel : Nat) (h : Heap) (q : Option Addr) :
    Except Fault (Heap × List Addr) :=
  match q with
  | none => .ok (h, [])
  | some _ => do
    let q0 ← loadQueue h q
    let r ← free_loop_log fuel h q0.head
    let h2 ← free r.1 q
    pure (h2, r.2)

/-! ## Theorems -/

/-! ### Execution of the operations on a described heap -/

theorem insert_head_exec (h : Heap) (q p v : Addr) (x : queue_t) (s : List Nat)
    (hq : h q = some (.queue x)) (hp : h p = none) (hpl : p < SIZE_MOD)
    (hv : h v = none) (hvl : v < SIZE_MOD) (hpv : v ≠ p) :
    queue_insert_head h (some q) s (some p) (some v) = .ok (true, fun a =>
      if a = q then some (.queue ⟨some p, if (x.size + 1) % SIZE_MOD = 1 then some p else x.tail,
          (x.size + 1) % SIZE_MOD⟩)
      else if a = p then some (.ele ⟨some v, x.head⟩)
      else if a = v then some (.chars (text s ++ [0]))
      else h a) := by
  have hqp : q ≠ p := by rintro rfl; simp [hp] at hq
  have hqv : q ≠ v := by rintro rfl; simp [hv] at hq
  simp [queue_insert_head, malloc, hp, hpl, hv, hvl, hpv, setValue, loadEle, storeEle, strcpy,
    loadQueue, storeQueue, setNext, Function.update_apply, hqp, hqv, hq, Ne.symm hpv,
    Ne.symm hqp, Ne.symm hqv, bind, Except.bind, pure, Except.pure, strlen]
  split <;>
  · congr 2
    funext a
    simp only [Function.update_apply]
    split_ifs <;> simp_all

theorem insert_tail_exec_empty (h : Heap) (q p v : Addr) (x : queue_t) (s : List Nat)
    (hq : h q = some (.queue x)) (ht : x.tail = none) (hp : h p = none) (hpl : p < SIZE_MOD)
    (hv : h v = none) (hvl : v < SIZE_MOD) (hpv : v ≠ p) :
    queue_insert_tail h (some q) s (some p) (some v) = .ok (true, fun a =>
      if a = q then some (.queue ⟨some p, some p, (x.size + 1) % SIZE_MOD⟩)
      else if a = p then some (.ele ⟨some v, none⟩)
      else if a = v then some (.chars (text s ++ [0]))
      else h a) := by
  have hqp : q ≠ p := by rintro rfl; simp [hp] at hq
  have hqv : q ≠ v := by rintro rfl; simp [hv] at hq
  simp [queue_insert_tail, malloc, hp, hpl, hv, hvl, hpv, setValue, loadEle, storeEle, strcpy,
    loadQueue, storeQueue, setNext, Function.update_apply, hqp, hqv, hq, ht, Ne.symm hpv,
    Ne.symm hqp, Ne.symm hqv, bind, Except.bind, pure, Except.pure, strlen]
  funext a
  simp only [Function.update_apply]
  split_ifs <;> simp_all

theorem insert_tail_exec_some (h : Heap) (q p v t : Addr) (x : queue_t) (e : list_ele_t)
    (s : List Nat)
    (hq : h q = some (.queue x)) (ht : x.tail = some t) (hte : h t = some (.ele e))
    (hp : h p = none) (hpl : p < SIZE_MOD)
    (hv : h v = none) (hvl : v < SIZE_MOD) (hpv : v ≠ p) :
    queue_insert_tail h (some q) s (some p) (some v) = .ok (true, fun a =>
      if a = q then some (.queue ⟨x.head, some p, (x.size + 1) % SIZE_MOD⟩)
      else if a = p then some (.ele ⟨some v, none⟩)
      else if a = v then some (.chars (text s ++ [0]))
      else if a = t then some (.ele ⟨e.value, some p⟩)
      else h a) := by
  have hqp : q ≠ p := by rintro rfl; simp [hp] at hq
  have hqv : q ≠ v := by rintro rfl; simp [hv] at hq
  have htp : t ≠ p := by rintro rfl; simp [hp] at hte
  have htv : t ≠ v := by rintro rfl; simp [hv] at hte
  have htq : t ≠ q := by rintro rfl; simp [hq] at hte
  simp [queue_insert_tail, malloc, hp, hpl, hv, hvl, hpv, setValue, loadEle, storeEle, strcpy,
    loadQueue, storeQueue, setNext, Function.update_apply, hqp, hqv, hq, ht, hte, htp, htv, htq,
    Ne.symm hpv, Ne.symm hqp, Ne.symm hqv, Ne.symm htp, Ne.symm htv, Ne.symm htq,
    bind, Except.bind, pure, Except.pure, strlen]
  funext a
  simp only [Function.update_apply]
  split_ifs <;> simp_all

theorem remove_head_exec (h : Heap) (q p v : Addr) (x : queue_t) (nxt : Option Addr)
    (bytes : List Nat) (buf : Option (Nat → Nat)) (c : Nat)
    (hq : h q = some (.queue x)) (hh : x.head = some p)
    (hp : h p = some (.ele ⟨some v, nxt⟩)) (hv : h v = some (.chars bytes)) :
    queue_remove_head h (some q) buf c = .ok (true,
      (fun a =>
        if a = q then some (.queue ⟨nxt, x.tail, (x.size + SIZE_MOD - 1) % SIZE_MOD⟩)
        else if a = p then none
        else if a = v then none
        else h a),
      buf.map (fun b => Function.update (strncpy b bytes ((c + SIZE_MOD - 1) % SIZE_MOD))
        ((c + SIZE_MOD - 1) % SIZE_MOD) 0)) := by
  have hqp : q ≠ p := by rintro rfl; simp [hp] at hq
  have hqv : q ≠ v := by rintro rfl; simp [hv] at hq
  have hpv : p ≠ v := by rintro rfl; simp [hv] at hp
  cases buf <;>
  · simp [queue_remove_head, loadQueue, loadEle, loadChars, storeQueue, free, hq, hh, hp, hv,
      Function.update_apply, hqp, hqv, hpv, Ne.symm hqp, Ne.symm hqv, Ne.symm hpv,
      bind, Except.bind, pure, Except.pure]
    funext a
    simp only [Function.update_apply]
    split_ifs <;> simp_all

/-! ### Chains -/

theorem linked_frame (h g : Heap) (cells : List Cell) (hl : linked h cells)
    (hf : ∀ c ∈ cells, g c.node = h c.node ∧ g c.vptr = h c.vptr) : linked g cells := by
  induction cells with
  | nil => trivial
  | cons c cs ih =>
    obtain ⟨h1, h2, h3⟩ := hl
    have hc := hf c (List.mem_cons_self _ _)
    exact ⟨hc.1.trans h1, hc.2.trans h2, ih h3 (fun d hd => hf d (List.mem_cons_of_mem _ hd))⟩

theorem linked_node (h : Heap) (cells : List Cell) (hl : linked h cells) (c : Cell)
    (hc : c ∈ cells) : ∃ n, h c.node = some (.ele ⟨some c.vptr, n⟩) := by
  induction cells with
  | nil => cases hc
  | cons d ds ih =>
    obtain ⟨h1, _, h3⟩ := hl
    rcases List.mem_cons.1 hc with rfl | hm
    · exact ⟨_, h1⟩
    · exact ih h3 hm

theorem linked_vptr (h : Heap) (cells : List Cell) (hl : linked h cells) (c : Cell)
    (hc : c ∈ cells) : h c.vptr = some (.chars c.bytes) := by
  induction cells with
  | nil => cases hc
  | cons d ds ih =>
    obtain ⟨_, h2, h3⟩ := hl
    rcases List.mem_cons.1 hc with rfl | hm
    · exact h2
    · exact ih h3 hm

/-- A list of distinct numbers below `N` has at most `N` entries. -/
theorem length_le_of_nodup_of_lt (l : List Nat) (N : Nat) (hn : l.Nodup)
    (hb : ∀ a ∈ l, a < N) : l.length ≤ N := by
  have hsub : l.toFinset ⊆ Finset.range N := by
    intro a ha
    exact Finset.mem_range.2 (hb a (List.mem_toFinset.1 ha))
  have hcard := Finset.card_le_card hsub
  rwa [List.toFinset_card_of_nodup hn, Finset.card_range] at hcard

/-- In a machine with 64-bit addresses, a queue that leaves room for one more
element has fewer than `2 ^ 64 - 1` elements: the counter does not wrap. -/
theorem Chained.length_lt {h : Heap} {q : Addr} {x : queue_t} {cells : List Cell}
    (hc : Chained h q x cells) (p : Addr) (hp : h p = none) (hpl : p < SIZE_MOD) :
    cells.length + 1 < SIZE_MOD := by
  have hnd : (q :: p :: cells.map Cell.node).Nodup := by
    have hpn : p ∉ cells.map Cell.node := by
      intro hm
      obtain ⟨c, hc1, rfl⟩ := List.mem_map.1 hm
      obtain ⟨n, hn⟩ := linked_node h cells hc.links c hc1
      simp [hp] at hn
    have hqn : q ∉ cells.map Cell.node := by
      intro hm
      obtain ⟨c, hc1, hc2⟩ := List.mem_map.1 hm
      obtain ⟨n, hn⟩ := linked_node h cells hc.links c hc1
      rw [hc2, hc.header] at hn
      simp at hn
    have hqp : q ≠ p := by
      rintro rfl
      have := hc.header
      simp [hp] at this
    refine List.nodup_cons.2 ⟨?_, List.nodup_cons.2 ⟨hpn, hc.nodes_nodup⟩⟩
    simp only [List.mem_cons, not_or]
    exact ⟨hqp, hqn⟩
  have hb : ∀ a ∈ q :: p :: cells.map Cell.node, a < SIZE_MOD := by
    intro a ha
    simp only [List.mem_cons, List.mem_map] at ha
    rcases ha with rfl | rfl | ⟨c, hc1, rfl⟩
    · exact hc.q_lt
    · exact hpl
    · exact hc.nodes_lt c hc1
  have := length_le_of_nodup_of_lt _ _ hnd hb
  simp only [List.length_cons, List.length_map] at this
  omega

theorem last_cons_of_ne_nil (c : Cell) (cells : List Cell) (hne : cells ≠ []) :
    last (c :: cells) = last cells := by
  cases cells with
  | nil => exact absurd rfl hne
  | cons d ds => simp [last, List.getLast?_cons_cons]

theorem wf_insert_head (h : Heap) (q p v : Addr) (x : queue_t) (cells : List Cell)
    (s : List Nat) (hc : Chained h q x cells) (ht : cells ≠ [] → x.tail = last cells)
    (hp : h p = none) (hpl : p < SIZE_MOD) (hv : h v = none) (hpv : v ≠ p) :
    WF (heapInsertHead h q p v x s) q
      ⟨some p, if cells = [] then some p else x.tail, cells.length + 1⟩
      (⟨p, v, text s ++ [0]⟩ :: cells) := by
  have hlen := hc.length_lt p hp hpl
  have hmod : (x.size + 1) % SIZE_MOD = cells.length + 1 := by
    rw [hc.count]; exact Nat.mod_eq_of_lt hlen
  have hqp : q ≠ p := by
    rintro rfl
    have := hc.header
    simp [hp] at this
  have hqv : q ≠ v := by
    rintro rfl
    have := hc.header
    simp [hv] at this
  have hnode : ∀ c ∈ cells, c.node ≠ q ∧ c.node ≠ p ∧ c.node ≠ v := by
    intro c hcm
    obtain ⟨n, hn⟩ := linked_node h cells hc.links c hcm
    refine ⟨?_, ?_, ?_⟩ <;> intro he <;> rw [he] at hn
    · rw [hc.header] at hn; simp at hn
    · simp [hp] at hn
    · simp [hv] at hn
  have hvptr : ∀ c ∈ cells, c.vptr ≠ q ∧ c.vptr ≠ p ∧ c.vptr ≠ v := by
    intro c hcm
    have hn := linked_vptr h cells hc.links c hcm
    refine ⟨?_, ?_, ?_⟩ <;> intro he <;> rw [he] at hn
    · rw [hc.header] at hn; simp at hn
    · simp [hp] at hn
    · simp [hv] at hn
  have htail : (if (x.size + 1) % SIZE_MOD = 1 then some p else x.tail) =
      (if cells = [] then some p else x.tail) := by
    rw [hmod]
    by_cases hnil : cells = []
    · simp [hnil]
    · have : cells.length ≠ 0 := fun h0 => hnil (List.length_eq_zero.1 h0)
      simp [hnil, this]
  refine ⟨⟨?_, rfl, ⟨?_, ?_, ?_⟩, rfl, ?_, ?_, hc.q_lt, ?_⟩, ?_⟩
  · simp [heapInsertHead, hmod, htail]
  · simp [heapInsertHead, Ne.symm hqp, hc.head_eq]
  · simp [heapInsertHead, Ne.symm hqv, hpv]
  · refine linked_frame h _ cells hc.links (fun c hcm => ?_)
    obtain ⟨a1, a2, a3⟩ := hnode c hcm
    obtain ⟨b1, b2, b3⟩ := hvptr c hcm
    simp [heapInsertHead, a1, a2, a3, b1, b2, b3]
  · simp only [List.map_cons, List.nodup_cons]
    refine ⟨?_, hc.nodes_nodup⟩
    intro hm
    obtain ⟨c, hc1, hc2⟩ := List.mem_map.1 hm
    exact (hnode c hc1).2.1 hc2
  · simp only [List.map_cons, List.nodup_cons]
    refine ⟨?_, hc.values_nodup⟩
    intro hm
    obtain ⟨c, hc1, hc2⟩ := List.mem_map.1 hm
    exact (hvptr c hc1).2.2 hc2
  · intro c hcm
    rcases List.mem_cons.1 hcm with rfl | hm
    · exact hpl
    · exact hc.nodes_lt c hm
  · by_cases hnil : cells = []
    · subst hnil; simp [last]
    · simp only [hnil, if_false]
      rw [last_cons_of_ne_nil _ _ hnil]
      exact ht hnil

theorem first_append_of_ne_nil (cs ds : List Cell) (hne : cs ≠ []) :
    first (cs ++ ds) = first cs := by
  cases cs with
  | nil => exact absurd rfl hne
  | cons c cs => rfl

theorem last_mem_nodes (cs : List Cell) (hne : cs ≠ []) :
    ∃ c ∈ cs, cs.getLast? = some c ∧ last cs = some c.node := by
  refine ⟨cs.getLast hne, List.getLast_mem hne, List.getLast?_eq_getLast _ hne, ?_⟩
  simp [last, List.getLast?_eq_getLast _ hne]

/-- Linking a new last element: the heap `g` keeps the chain `cs` of `h` but
for the link of its last element, which now is the new element `c0`. -/
theorem linked_snoc (h g : Heap) (cs : List Cell) (c0 : Cell) (hl : linked h cs)
    (hnd : (cs.map Cell.node).Nodup)
    (hv : ∀ c ∈ cs, g c.vptr = h c.vptr)
    (hn : ∀ c ∈ cs, some c.node ≠ last cs → g c.node = h c.node)
    (hlast : ∀ c, cs.getLast? = some c →
      g c.node = some (.ele ⟨some c.vptr, some c0.node⟩))
    (h0 : g c0.node = some (.ele ⟨some c0.vptr, none⟩))
    (h0v : g c0.vptr = some (.chars c0.bytes)) : linked g (cs ++ [c0]) := by
  induction cs with
  | nil => exact ⟨h0, h0v, trivial⟩
  | cons c cs ih =>
    obtain ⟨h1, h2, h3⟩ := hl
    have hndc : c.node ∉ cs.map Cell.node ∧ (cs.map Cell.node).Nodup :=
      List.nodup_cons.1 hnd
    by_cases hnil : cs = []
    · subst hnil
      refine ⟨?_, (hv c (List.mem_cons_self _ _)).trans h2, h0, h0v, trivial⟩
      simpa [first] using hlast c rfl
    · have hlc : last (c :: cs) = last cs := last_cons_of_ne_nil c cs hnil
      refine ⟨?_, (hv c (List.mem_cons_self _ _)).trans h2, ?_⟩
      · show g c.node = some (.ele ⟨some c.vptr, first (cs ++ [c0])⟩)
        rw [first_append_of_ne_nil cs [c0] hnil, ← h1]
        apply hn c (List.mem_cons_self _ _)
        rw [hlc]
        obtain ⟨d, hd, _, hd2⟩ := last_mem_nodes cs hnil
        rw [hd2]
        intro he
        apply hndc.1
        rw [Option.some.inj he]
        exact List.mem_map_of_mem _ hd
      · apply ih h3 hndc.2
        · exact fun d hd => hv d (List.mem_cons_of_mem _ hd)
        · intro d hd hne
          exact hn d (List.mem_cons_of_mem _ hd) (by rw [hlc]; exact hne)
        · intro d hd
          apply hlast d
          rw [← hd]
          cases cs with
          | nil => exact absurd rfl hnil
          | cons e es => simp [List.getLast?_cons_cons]

/-! ### The operations on a well-formed queue -/

theorem insert_head_spec (h : Heap) (q p v : Addr) (x : queue_t) (cells : List Cell)
    (s : List Nat) (hc : Chained h q x cells) (ht : cells ≠ [] → x.tail = last cells)
    (hp : h p = none) (hpl : p < SIZE_MOD) (hv : h v = none) (hvl : v < SIZE_MOD)
    (hpv : v ≠ p) :
    ∃ g, queue_insert_head h (some q) s (some p) (some v) = .ok (true, g) ∧
      WF g q ⟨some p, if cells = [] then some p else x.tail, cells.length + 1⟩
        (⟨p, v, text s ++ [0]⟩ :: cells) ∧
      (∀ a, a ≠ q → a ≠ p → a ≠ v → g a = h a) := by
  refine ⟨heapInsertHead h q p v x s, ?_, wf_insert_head h q p v x cells s hc ht hp hpl hv hpv, ?_⟩
  · exact insert_head_exec h q p v x s hc.header hp hpl hv hvl hpv
  · intro a h1 h2 h3
    simp [heapInsertHead, h1, h2, h3]

theorem insert_tail_spec (h : Heap) (q p v : Addr) (x : queue_t) (cells : List Cell)
    (s : List Nat) (hw : WF h q x cells)
    (hp : h p = none) (hpl : p < SIZE_MOD) (hv : h v = none) (hvl : v < SIZE_MOD)
    (hpv : v ≠ p) :
    ∃ g, queue_insert_tail h (some q) s (some p) (some v) = .ok (true, g) ∧
      WF g q ⟨if cells = [] then some p else x.head, some p, cells.length + 1⟩
        (cells ++ [⟨p, v, text s ++ [0]⟩]) ∧
      (∀ a, a ≠ q → a ≠ p → a ≠ v → some a ≠ x.tail → g a = h a) := by
  obtain ⟨hc, ht⟩ := hw
  have hlen := hc.length_lt p hp hpl
  have hmod : (x.size + 1) % SIZE_MOD = cells.length + 1 := by
    rw [hc.count]; exact Nat.mod_eq_of_lt hlen
  have hqp : q ≠ p := by
    rintro rfl
    have := hc.header
    simp [hp] at this
  have hqv : q ≠ v := by
    rintro rfl
    have := hc.header
    simp [hv] at this
  have hnode : ∀ c ∈ cells, c.node ≠ q ∧ c.node ≠ p ∧ c.node ≠ v := by
    intro c hcm
    obtain ⟨n, hn⟩ := linked_node h cells hc.links c hcm
    refine ⟨?_, ?_, ?_⟩ <;> intro he <;> rw [he] at hn
    · rw [hc.header] at hn; simp at hn
    · simp [hp] at hn
    · simp [hv] at hn
  have hvptr : ∀ c ∈ cells, c.vptr ≠ q ∧ c.vptr ≠ p ∧ c.vptr ≠ v := by
    intro c hcm
    have hn := linked_vptr h cells hc.links c hcm
    refine ⟨?_, ?_, ?_⟩ <;> intro he <;> rw [he] at hn
    · rw [hc.header] at hn; simp at hn
    · simp [hp] at hn
    · simp [hv] at hn
  have hnd1 : (List.map Cell.node (cells ++ [⟨p, v, text s ++ [0]⟩])).Nodup := by
    rw [List.map_append, List.nodup_append]
    refine ⟨hc.nodes_nodup, List.nodup_singleton _, ?_⟩
    intro a ha hb
    obtain ⟨c, hc1, rfl⟩ := List.mem_map.1 ha
    simp only [List.map_cons, List.map_nil, List.mem_singleton] at hb
    exact (hnode c hc1).2.1 hb
  have hnd2 : (List.map Cell.vptr (cells ++ [⟨p, v, text s ++ [0]⟩])).Nodup := by
    rw [List.map_append, List.nodup_append]
    refine ⟨hc.values_nodup, List.nodup_singleton _, ?_⟩
    intro a ha hb
    obtain ⟨c, hc1, rfl⟩ := List.mem_map.1 ha
    simp only [List.map_cons, List.map_nil, List.mem_singleton] at hb
    exact (hvptr c hc1).2.2 hb
  have hlt : ∀ c ∈ cells ++ [⟨p, v, text s ++ [0]⟩], c.node < SIZE_MOD := by
    intro c hcm
    rcases List.mem_append.1 hcm with hm | hm
    · exact hc.nodes_lt c hm
    · rw [List.mem_singleton.1 hm]; exact hpl
  by_cases hnil : cells = []
  · subst hnil
    have ht0 : x.tail = none := by simpa [last] using ht
    refine ⟨_, insert_tail_exec_empty h q p v x s hc.header ht0 hp hpl hv hvl hpv, ?_, ?_⟩
    · refine ⟨⟨?_, rfl, ⟨?_, ?_, trivial⟩, rfl, hnd1, hnd2, hc.q_lt, hlt⟩, ?_⟩
      · simp [hmod]
      · simp [Ne.symm hqp, first]
      · simp [Ne.symm hqv, hpv]
      · simp [last]
    · intro a h1 h2 h3 _
      simp [h1, h2, h3]
  · obtain ⟨d, hd, hd1, hd2⟩ := last_mem_nodes cells hnil
    have htd : x.tail = some d.node := ht.trans hd2
    have hdl : h d.node = some (.ele ⟨some d.vptr, none⟩) := by
      have : ∀ (l : List Cell), linked h l → l.getLast? = some d →
          h d.node = some (.ele ⟨some d.vptr, none⟩) := by
        intro l
        induction l with
        | nil => intro _ hl; simp at hl
        | cons c cs ih =>
          intro hl hg
          cases cs with
          | nil =>
            simp only [List.getLast?_singleton, Option.some.injEq] at hg
            subst hg
            exact hl.1
          | cons e es =>
            rw [List.getLast?_cons_cons] at hg
            exact ih hl.2.2 hg
      exact this cells hc.links hd1
    obtain ⟨d1, d2, d3⟩ := hnode d hd
    refine ⟨_, insert_tail_exec_some h q p v d.node x _ s hc.header htd hdl hp hpl hv hvl hpv,
      ?_, ?_⟩
    · refine ⟨⟨?_, ?_, ?_, ?_, hnd1, hnd2, hc.q_lt, hlt⟩, ?_⟩
      · simp [hmod, hnil]
      · show (if cells = [] then some p else x.head) = first (cells ++ _)
        rw [first_append_of_ne_nil _ _ hnil, if_neg hnil, hc.head_eq]
      · refine linked_snoc h _ cells _ hc.links hc.nodes_nodup ?_ ?_ ?_ ?_ ?_
        · intro c hcm
          obtain ⟨b1, b2, b3⟩ := hvptr c hcm
          have b4 : c.vptr ≠ d.node := by
            intro he
            have := linked_vptr h cells hc.links c hcm
            rw [he, hdl] at this
            simp at this
          simp [b1, b2, b3, b4]
        · intro c hcm hne
          obtain ⟨a1, a2, a3⟩ := hnode c hcm
          have a4 : c.node ≠ d.node := by
            intro he
            apply hne
            rw [hd2, he]
          simp [a1, a2, a3, a4]
        · intro c hcl
          have hcd : c = d := Option.some.inj (hcl.symm.trans hd1)
          subst hcd
          simp [d1, d2, d3]
        · simp [Ne.symm hqp]
        · simp [Ne.symm hqv, hpv]
      · simp
      · simp [last]
    · intro a h1 h2 h3 h4
      have h5 : a ≠ d.node := by
        intro he
        apply h4
        rw [htd, he]
      simp [h1, h2, h3, h5]

theorem Chained.length_le {h : Heap} {q : Addr} {x : queue_t} {cells : List Cell}
    (hc : Chained h q x cells) : cells.length ≤ SIZE_MOD := by
  have := length_le_of_nodup_of_lt _ SIZE_MOD hc.nodes_nodup (by
    intro a ha
    obtain ⟨c, hc1, rfl⟩ := List.mem_map.1 ha
    exact hc.nodes_lt c hc1)
  simpa using this

theorem remove_head_spec (h : Heap) (q : Addr) (x : queue_t) (c : Cell) (cs : List Cell)
    (buf : Option (Nat → Nat)) (n : Nat) (hc : Chained h q x (c :: cs)) :
    ∃ g, queue_remove_head h (some q) buf n = .ok (true, g, buf.map (bufAfter c.bytes n)) ∧
      Chained g q ⟨first cs, x.tail, cs.length⟩ cs ∧
      g c.node = none ∧ g c.vptr = none ∧
      (∀ a, a ≠ q → a ≠ c.node → a ≠ c.vptr → g a = h a) := by
  obtain ⟨h1, h2, h3⟩ := hc.links
  have hlen := hc.length_le
  have hmod : (x.size + SIZE_MOD - 1) % SIZE_MOD = cs.length := by
    rw [hc.count]
    simp only [List.length_cons] at hlen ⊢
    rw [show cs.length + 1 + SIZE_MOD - 1 = cs.length + SIZE_MOD by omega,
      Nat.add_mod_right]
    exact Nat.mod_eq_of_lt (by omega)
  have hqp : q ≠ c.node := by
    rintro he
    have := hc.header
    rw [he, h1] at this
    simp at this
  have hqv : q ≠ c.vptr := by
    rintro he
    have := hc.header
    rw [he, h2] at this
    simp at this
  have hpv : c.node ≠ c.vptr := by
    intro he
    rw [he, h2] at h1
    simp at h1
  have hnd := List.nodup_cons.1 hc.nodes_nodup
  have hvd := List.nodup_cons.1 hc.values_nodup
  refine ⟨_, remove_head_exec h q c.node c.vptr x (first cs) c.bytes buf n hc.header
    hc.head_eq h1 h2, ⟨?_, rfl, ?_, rfl, hnd.2, hvd.2, hc.q_lt, ?_⟩, ?_, ?_, ?_⟩
  · simp [hmod]
  · refine linked_frame h _ cs h3 (fun d hd => ?_)
    obtain ⟨m, hm⟩ := linked_node h cs h3 d hd
    have hdv := linked_vptr h cs h3 d hd
    have a1 : d.node ≠ q := by
      intro he; rw [he, hc.header] at hm; simp at hm
    have a2 : d.node ≠ c.node := by
      intro he; exact hnd.1 (he ▸ List.mem_map_of_mem _ hd)
    have a3 : d.node ≠ c.vptr := by
      intro he; rw [he, h2] at hm; simp at hm
    have b1 : d.vptr ≠ q := by
      intro he; rw [he, hc.header] at hdv; simp at hdv
    have b2 : d.vptr ≠ c.node := by
      intro he; rw [he, h1] at hdv; simp at hdv
    have b3 : d.vptr ≠ c.vptr := by
      intro he; exact hvd.1 (he ▸ List.mem_map_of_mem _ hd)
    simp [a1, a2, a3, b1, b2, b3]
  · exact fun d hd => hc.nodes_lt d (List.mem_cons_of_mem _ hd)
  · simp [Ne.symm hqp]
  · simp [Ne.symm hqv, Ne.symm hpv]
  · intro a a1 a2 a3
    simp [a1, a2, a3]

theorem remove_head_empty (h : Heap) (q : Addr) (x : queue_t) (buf : Option (Nat → Nat))
    (n : Nat) (hq : h q = some (.queue x)) (hh : x.head = none) :
    queue_remove_head h (some q) buf n = .ok (false, h, buf) := by
  simp [queue_remove_head, loadQueue, hq, hh, bind, Except.bind, pure, Except.pure]

theorem queue_size_exec (h : Heap) (q : Addr) (x : queue_t) (hq : h q = some (.queue x)) :
    queue_size h (some q) = .ok (if x.head = none then 0 else x.size) := by
  cases hx : x.head <;>
    simp [queue_size, loadQueue, hq, hx, bind, Except.bind, pure, Except.pure]

/-! ### Strings and the buffer of the caller -/

theorem text_ne_zero (s : List Nat) : ∀ b ∈ text s, b ≠ 0 := by
  intro b hb
  have := List.mem_takeWhile_imp hb
  simpa using this

theorem text_append_zeros (t : List Nat) (k : Nat) (ht : ∀ b ∈ t, b ≠ 0) :
    text (t ++ List.replicate k 0) = t := by
  induction t with
  | nil =>
    cases k with
    | zero => rfl
    | succ k => simp [text, List.replicate_succ]
  | cons a t ih =>
    have ha : a ≠ 0 := ht a (List.mem_cons_self _ _)
    have := ih (fun b hb => ht b (List.mem_cons_of_mem _ hb))
    simp only [text] at this ⊢
    simp [List.takeWhile_cons, ha, this]

theorem text_text_zero (s : List Nat) : text (text s ++ [0]) = text s :=
  text_append_zeros (text s) 1 (text_ne_zero s)

theorem size_pred (c : Nat) (h1 : 1 ≤ c) (h2 : c < SIZE_MOD) :
    (c + SIZE_MOD - 1) % SIZE_MOD = c - 1 := by
  rw [show c + SIZE_MOD - 1 = c - 1 + SIZE_MOD by omega, Nat.add_mod_right]
  exact Nat.mod_eq_of_lt (by omega)

theorem bufAfter_apply (bytes : List Nat) (c : Nat) (b : Nat → Nat) (h1 : 1 ≤ c)
    (h2 : c < SIZE_MOD) (i : Nat) :
    bufAfter bytes c b i =
      if i < c - 1 then (text bytes).getD i 0 else if i = c - 1 then 0 else b i := by
  unfold bufAfter
  rw [size_pred c h1 h2]
  by_cases hi : i = c - 1
  · subst hi
    simp
  · rw [Function.update_noteq hi]
    simp [strncpy, hi]

theorem map_bufAfter (bytes : List Nat) (c : Nat) (b : Nat → Nat) (h1 : 1 ≤ c)
    (h2 : c < SIZE_MOD) :
    (List.range c).map (bufAfter bytes c b) =
      (text bytes).take (c - 1) ++ List.replicate (c - min (strlen bytes) (c - 1)) 0 := by
  apply List.ext_getElem
  · simp only [List.length_map, List.length_range, List.length_append, List.length_take,
      List.length_replicate, strlen]
    omega
  · intro i hi1 hi2
    simp only [List.length_map, List.length_range] at hi1
    simp only [List.getElem_map, List.getElem_range]
    rw [bufAfter_apply bytes c b h1 h2]
    by_cases hlt : i < min (strlen bytes) (c - 1)
    · have hi3 : i < c - 1 := lt_of_lt_of_le hlt (min_le_right _ _)
      have hi4 : i < (text bytes).length := lt_of_lt_of_le hlt (min_le_left _ _)
      rw [if_pos hi3, List.getElem_append_left (by
        simp only [List.length_take, lt_min_iff]; exact ⟨hi3, hi4⟩)]
      simp [List.getD_eq_getElem?_getD, List.getElem?_eq_getElem hi4]
    · rw [List.getElem_append_right (by
        simp only [List.length_take, strlen] at hlt ⊢
        rw [min_comm]; exact not_lt.1 hlt)]
      simp only [List.getElem_replicate]
      split_ifs with ha hb
      · have hi4 : (text bytes).length ≤ i := by
          simp only [strlen, lt_min_iff, not_and, not_lt] at hlt
          by_contra hcon
          exact absurd (hlt (not_le.1 hcon)) (not_le.2 ha)
        simp [List.getD_eq_getElem?_getD, List.getElem?_eq_none hi4]
      · rfl
      · omega

theorem readback_bufAfter (bytes : List Nat) (c : Nat) (b : Nat → Nat) (h1 : 1 ≤ c)
    (h2 : c < SIZE_MOD) : readback (bufAfter bytes c b) c = (text bytes).take (c - 1) := by
  unfold readback
  rw [map_bufAfter bytes c b h1 h2]
  exact text_append_zeros _ _ (fun x hx => text_ne_zero bytes x (List.mem_of_mem_take hx))

theorem head_bufAfter (bytes : List Nat) (c : Nat) (b : Nat → Nat) (h1 : 1 ≤ c)
    (h2 : c < SIZE_MOD) :
    (List.range (min (strlen bytes) (c - 1) + 1)).map (bufAfter bytes c b) =
      (text bytes).take (min (strlen bytes) (c - 1)) ++ [0] := by
  apply List.ext_getElem
  · simp only [List.length_map, List.length_range, List.length_append, List.length_take,
      List.length_singleton, strlen]
    omega
  · intro i hi1 hi2
    simp only [List.length_map, List.length_range] at hi1
    simp only [List.getElem_map, List.getElem_range]
    rw [bufAfter_apply bytes c b h1 h2]
    by_cases hlt : i < min (strlen bytes) (c - 1)
    · have hi3 : i < c - 1 := lt_of_lt_of_le hlt (min_le_right _ _)
      have hi4 : i < (text bytes).length := lt_of_lt_of_le hlt (min_le_left _ _)
      rw [if_pos hi3, List.getElem_append_left (by
        simp only [List.length_take, strlen] at hlt ⊢
        omega)]
      simp [List.getD_eq_getElem?_getD, List.getElem?_eq_getElem hi4]
    · have hie : i = min (strlen bytes) (c - 1) := by omega
      rw [List.getElem_append_right (by
        simp only [List.length_take, strlen] at hie ⊢
        omega)]
      simp only [List.getElem_singleton]
      split_ifs with ha hb
      · have hi4 : (text bytes).length ≤ i := by
          simp only [strlen] at hie
          omega
        simp [List.getD_eq_getElem?_getD, List.getElem?_eq_none hi4]
      · rfl
      · simp only [strlen] at hie
        omega

/-! ### Reversal -/

theorem first_reverse (l : List Cell) : first l.reverse = last l := by
  simp [first, last, List.head?_reverse]

theorem last_reverse (l : List Cell) : last l.reverse = first l := by
  simp [first, last, List.getLast?_reverse]

theorem reverse_loop_done (fuel : Nat) (h : Heap) (prev curr : Option Addr) :
    reverse_loop fuel h prev curr none = .ok (h, prev, curr) := by
  cases fuel <;> rfl

theorem reverse_loop_step (fuel : Nat) (h : Heap) (prev : Option Addr) (c n : Addr)
    (e e2 : list_ele_t) (hc : h c = some (.ele e)) (hn : h n = some (.ele e2)) (hne : n ≠ c) :
    reverse_loop (fuel + 1) h prev (some c) (some n) =
      reverse_loop fuel (Function.update h c (some (.ele ⟨e.value, prev⟩))) (some c) (some n)
        e2.next := by
  simp [reverse_loop, setNext, loadEle, storeEle, hc, hn, hne, Function.update_apply,
    bind, Except.bind]

/-- The loop of `queue_reverse`.  On entry the elements `rev` are already
linked backwards from `prev`, `curr` is the element `c`, still linked to the
elements `rest` that follow it.  The loop ends on the last element `d` of
`c :: rest`, with all elements before it linked backwards. -/
theorem reverse_loop_spec (rest : List Cell) :
    ∀ (rev : List Cell) (c : Cell) (h : Heap) (fuel : Nat), rest.length ≤ fuel →
      linked h rev →
      h c.node = some (.ele ⟨some c.vptr, first rest⟩) → h c.vptr = some (.chars c.bytes) →
      linked h rest → ((rev ++ c :: rest).map Cell.node).Nodup →
      ∃ g d init, c :: rest = init ++ [d] ∧
        reverse_loop fuel h (first rev) (some c.node) (first rest) =
          .ok (g, first (init.reverse ++ rev), some d.node) ∧
        linked g (init.reverse ++ rev) ∧ g d.node = h d.node ∧
        (∀ a, a ∉ (c :: rest).map Cell.node → g a = h a) := by
  induction rest with
  | nil =>
    intro rev c h fuel _ hrev _ _ _ _
    exact ⟨h, c, [], rfl, reverse_loop_done _ _ _ _, hrev, rfl, fun _ _ => rfl⟩
  | cons c2 rest ih =>
    intro rev c h fuel hfuel hrev hc hcv hrest hnd
    obtain ⟨f, rfl⟩ : ∃ f, fuel = f + 1 := ⟨fuel - 1, by simp at hfuel; omega⟩
    obtain ⟨hc2, hc2v, hrest2⟩ := hrest
    have hperm : (((c :: rev) ++ c2 :: rest).map Cell.node).Nodup := by
      refine (List.Perm.nodup_iff ?_).1 hnd
      exact (List.perm_middle).map _
    have hnd2 := List.nodup_cons.1 (by simpa using hperm :
      (c.node :: (rev ++ c2 :: rest).map Cell.node).Nodup)
    have hne_node : ∀ d ∈ rev ++ c2 :: rest, d.node ≠ c.node := by
      intro d hd he
      exact hnd2.1 (he ▸ List.mem_map_of_mem _ hd)
    have hne_vptr : ∀ d : Cell, h d.vptr = some (.chars d.bytes) → d.vptr ≠ c.node := by
      intro d hd he
      rw [he, hc] at hd
      simp at hd
    have h2c : c2.node ≠ c.node :=
      hne_node c2 (List.mem_append_right _ (List.mem_cons_self _ _))
    let h1 : Heap := Function.update h c.node (some (.ele ⟨some c.vptr, first rev⟩))
    have hstep := reverse_loop_step f h (first rev) c.node c2.node _ _ hc hc2 h2c
    have hl1 : linked h1 (c :: rev) := by
      refine ⟨by simp [h1], ?_, ?_⟩
      · simp only [h1]
        rw [Function.update_noteq (hne_vptr c hcv)]
        exact hcv
      · refine linked_frame h _ rev hrev (fun d hd => ?_)
        simp only [h1]
        rw [Function.update_noteq (hne_node d (List.mem_append_left _ hd)),
          Function.update_noteq (hne_vptr d (linked_vptr h rev hrev d hd))]
        exact ⟨rfl, rfl⟩
    have hl2 : linked h1 rest := by
      refine linked_frame h _ rest hrest2 (fun d hd => ?_)
      simp only [h1]
      rw [Function.update_noteq
          (hne_node d (List.mem_append_right _ (List.mem_cons_of_mem _ hd))),
        Function.update_noteq (hne_vptr d (linked_vptr h rest hrest2 d hd))]
      exact ⟨rfl, rfl⟩
    have hc2' : h1 c2.node = some (.ele ⟨some c2.vptr, first rest⟩) := by
      simp only [h1]
      rw [Function.update_noteq h2c]
      exact hc2
    have hc2v' : h1 c2.vptr = some (.chars c2.bytes) := by
      simp only [h1]
      rw [Function.update_noteq (hne_vptr c2 hc2v)]
      exact hc2v
    obtain ⟨g, d, init, hsplit, hrun, hlg, hgd, hframe⟩ :=
      ih (c :: rev) c2 h1 f (by simpa using hfuel) hl1 hc2' hc2v' hl2 hperm
    have hd_mem : d ∈ c2 :: rest := by
      rw [hsplit]
      exact List.mem_append_right _ (List.mem_singleton_self _)
    refine ⟨g, d, c :: init, by rw [hsplit]; rfl, ?_, ?_, ?_, ?_⟩
    · have : first (c2 :: rest) = some c2.node := rfl
      rw [this, hstep]
      have hf : first (c :: rev) = some c.node := rfl
      rw [hf] at hrun
      simpa using hrun
    · simpa using hlg
    · rw [hgd]
      exact Function.update_noteq (hne_node d (List.mem_append_right _ hd_mem)) _ _
    · intro a ha
      have ha1 : a ≠ c.node := by
        intro he
        exact ha (he ▸ List.mem_cons_self _ _)
      have ha2 : a ∉ (c2 :: rest).map Cell.node := by
        intro hm
        exact ha (List.mem_cons_of_mem _ hm)
      rw [hframe a ha2]
      exact Function.update_noteq ha1 _ _

theorem queue_reverse_exec (fuel : Nat) (h g : Heap) (q c d : Addr) (x y : queue_t)
    (e ed : list_ele_t) (prev : Option Addr)
    (hq : h q = some (.queue x)) (hh : x.head = some c) (hc : h c = some (.ele e))
    (hloop : reverse_loop fuel (Function.update h q (some (.queue ⟨x.head, x.head, x.size⟩)))
      none (some c) e.next = .ok (g, prev, some d))
    (hd : g d = some (.ele ed)) (hgq : g q = some (.queue y)) :
    queue_reverse fuel h (some q) = .ok (Function.update
      (Function.update g d (some (.ele ⟨ed.value, prev⟩))) q
      (some (.queue ⟨some d, y.tail, y.size⟩))) := by
  have hcq : c ≠ q := by
    rintro rfl
    rw [hq] at hc
    simp at hc
  have hdq : d ≠ q := by
    rintro rfl
    rw [hgq] at hd
    simp at hd
  have hloop2 : reverse_loop fuel
      (Function.update h q (some (.queue ⟨some c, some c, x.size⟩))) none (some c) e.next =
      .ok (g, prev, some d) := by
    simpa only [hh] using hloop
  simp [queue_reverse, loadQueue, storeQueue, loadEle, storeEle, setNext, hq, hh, hc, hcq,
    hdq, Ne.symm hdq, hloop2, hd, hgq, Function.update_apply, bind, Except.bind, pure,
    Except.pure]

theorem queue_reverse_spec (fuel : Nat) (h : Heap) (q : Addr) (x : queue_t)
    (cells : List Cell) (hw : WF h q x cells) (hfuel : cells.length ≤ fuel + 1) :
    ∃ g, queue_reverse fuel h (some q) = .ok g ∧
      WF g q ⟨last cells, first cells, cells.length⟩ cells.reverse ∧
      (∀ a, a ≠ q → a ∉ cells.map Cell.node → g a = h a) := by
  obtain ⟨hc, ht⟩ := hw
  cases cells with
  | nil =>
    have hx : x = ⟨none, none, 0⟩ := by
      cases x
      simpa [first, last] using ⟨hc.head_eq, ht, hc.count⟩
    subst hx
    refine ⟨h, ?_, ⟨hc, rfl⟩, fun _ _ _ => rfl⟩
    simp [queue_reverse, loadQueue, hc.header, bind, Except.bind, pure, Except.pure]
  | cons c rest =>
    obtain ⟨l1, l2, l3⟩ := hc.links
    have hq := hc.header
    have hnode_q : ∀ d ∈ c :: rest, d.node ≠ q := by
      intro d hd he
      obtain ⟨n, hn⟩ := linked_node h _ hc.links d hd
      rw [he, hq] at hn
      simp at hn
    have hvptr_q : ∀ d ∈ c :: rest, d.vptr ≠ q := by
      intro d hd he
      have hn := linked_vptr h _ hc.links d hd
      rw [he, hq] at hn
      simp at hn
    have hvptr_node : ∀ d ∈ c :: rest, d.vptr ∉ (c :: rest).map Cell.node := by
      intro d hd hm
      obtain ⟨d2, hd2, he⟩ := List.mem_map.1 hm
      obtain ⟨n, hn⟩ := linked_node h _ hc.links d2 hd2
      have hv := linked_vptr h _ hc.links d hd
      rw [← he, hn] at hv
      simp at hv
    let h1 : Heap := Function.update h q (some (.queue ⟨x.head, x.head, x.size⟩))
    have hl1 : linked h1 (c :: rest) := by
      refine linked_frame h _ _ hc.links (fun d hd => ?_)
      simp only [h1]
      rw [Function.update_noteq (hnode_q d hd), Function.update_noteq (hvptr_q d hd)]
      exact ⟨rfl, rfl⟩
    obtain ⟨g, d, init, hsplit, hrun, hlg, hgd, hframe⟩ :=
      reverse_loop_spec rest [] c h1 fuel (by simpa using hfuel) trivial hl1.1 hl1.2.1 hl1.2.2
        (by simpa using hc.nodes_nodup)
    have hd_mem : d ∈ c :: rest := by
      rw [hsplit]
      exact List.mem_append_right _ (List.mem_singleton_self _)
    have hinit_mem : ∀ a ∈ init, a ∈ c :: rest := by
      intro a ha
      rw [hsplit]
      exact List.mem_append_left _ ha
    obtain ⟨nd, hnd⟩ := linked_node h _ hc.links d hd_mem
    have hgd2 : g d.node = some (.ele ⟨some d.vptr, nd⟩) := by
      rw [hgd]
      simp only [h1]
      rw [Function.update_noteq (hnode_q d hd_mem)]
      exact hnd
    have hgq : g q = some (.queue ⟨x.head, x.head, x.size⟩) := by
      rw [hframe q (by
        intro hm
        obtain ⟨d2, hd2, he⟩ := List.mem_map.1 hm
        exact hnode_q d2 hd2 he)]
      simp [h1]
    have hgv : ∀ a ∈ c :: rest, g a.vptr = some (.chars a.bytes) := by
      intro a ha
      rw [hframe _ (hvptr_node a ha)]
      simp only [h1]
      rw [Function.update_noteq (hvptr_q a ha)]
      exact linked_vptr h _ hc.links a ha
    have hexec := queue_reverse_exec fuel h g q c.node d.node x _ _ _ (first (init.reverse ++ []))
      hq hc.head_eq l1 (by simpa [first] using hrun) hgd2 hgq
    have hnd_all : ((init ++ [d]).map Cell.node).Nodup := hsplit ▸ hc.nodes_nodup
    have hvd_all : ((init ++ [d]).map Cell.vptr).Nodup := hsplit ▸ hc.values_nodup
    have hd_notin : ∀ a ∈ init, a.node ≠ d.node := by
      intro a ha he
      rw [List.map_append, List.nodup_append] at hnd_all
      exact hnd_all.2.2 (List.mem_map_of_mem _ ha) (by simp [he])
    have hrev : (c :: rest).reverse = d :: init.reverse := by
      rw [hsplit]; simp
    have hlast : last (c :: rest) = some d.node := by
      rw [hsplit]; simp [last]
    refine ⟨_, hexec, ⟨⟨?_, ?_, ?_, (List.length_reverse _).symm, ?_, ?_, hc.q_lt, ?_⟩, ?_⟩, ?_⟩
    · simp [hlast, hc.head_eq, hc.count]
    · rw [hrev, hlast]; rfl
    · rw [hrev]
      refine ⟨?_, ?_, ?_⟩
      · simp [Function.update_apply, hnode_q d hd_mem]
      · have hne : d.vptr ≠ d.node := by
          intro he
          exact hvptr_node d hd_mem (he ▸ List.mem_map_of_mem _ hd_mem)
        simp [Function.update_apply, hvptr_q d hd_mem, hne, hgv d hd_mem]
      · refine linked_frame g _ _ (by simpa using hlg) (fun a ha => ?_)
        have ha2 : a ∈ init := List.mem_reverse.1 ha
        have hne : a.vptr ≠ d.node := by
          intro he
          exact hvptr_node a (hinit_mem a ha2) (he ▸ List.mem_map_of_mem _ hd_mem)
        simp [Function.update_apply, hnode_q a (hinit_mem a ha2),
          hvptr_q a (hinit_mem a ha2), hd_notin a ha2, hne]
    · rw [List.map_reverse]
      exact List.nodup_reverse.2 hc.nodes_nodup
    · rw [List.map_reverse]
      exact List.nodup_reverse.2 hc.values_nodup
    · intro a ha
      exact hc.nodes_lt a (List.mem_reverse.1 ha)
    · rw [last_reverse]
    · intro a ha1 ha2
      have ha3 : a ≠ d.node := by
        intro he
        exact ha2 (he ▸ List.mem_map_of_mem _ hd_mem)
      rw [Function.update_noteq ha1, Function.update_noteq ha3, hframe a ha2]
      exact Function.update_noteq ha1 _ _

theorem linked_last (h : Heap) (l : List Cell) (d : Cell) (hl : linked h l)
    (hd : l.getLast? = some d) : h d.node = some (.ele ⟨some d.vptr, none⟩) := by
  induction l with
  | nil => simp at hd
  | cons c cs ih =>
    cases cs with
    | nil =>
      simp only [List.getLast?_singleton, Option.some.injEq] at hd
      subst hd
      exact hl.1
    | cons e es =>
      rw [List.getLast?_cons_cons] at hd
      exact ih hl.2.2 hd

theorem WF.tail_link {h : Heap} {q : Addr} {x : queue_t} {cells : List Cell}
    (hw : WF h q x cells) (t : Addr) (ht : x.tail = some t) :
    ∃ e, h t = some (.ele e) ∧ e.next = none := by
  have hne : cells ≠ [] := by
    rintro rfl
    have := hw.2
    rw [ht] at this
    simp [last] at this
  obtain ⟨d, _, hd1, hd2⟩ := last_mem_nodes cells hne
  have : t = d.node := Option.some.inj ((ht.symm.trans hw.2).trans hd2)
  exact ⟨_, this ▸ linked_last h cells d hw.1.links hd1, rfl⟩

/-- Two heaps in which the same cells are linked in the same order agree on
every element of the chain. -/
theorem linked_agree (h g : Heap) (l : List Cell) (hl : linked h l) (gl : linked g l) :
    ∀ c ∈ l, g c.node = h c.node := by
  induction l with
  | nil => intro c hc; cases hc
  | cons d ds ih =>
    intro c hc
    rcases List.mem_cons.1 hc with rfl | hm
    · rw [hl.1, gl.1]
    · exact ih hl.2.2 gl.2.2 c hm

/-! ### Sequences of calls -/

theorem queue_new_spec (h : Heap) (r : Option Addr) (q : Addr) (g : Heap)
    (hnew : queue_new h r = (some q, g)) :
    h q = none ∧ q < SIZE_MOD ∧ WF g q ⟨none, none, 0⟩ [] ∧ (∀ a, a ≠ q → g a = h a) := by
  unfold queue_new malloc at hnew
  cases r with
  | none => simp at hnew
  | some p =>
    simp only [Option.isNone_iff_eq_none] at hnew
    by_cases hp : p < SIZE_MOD ∧ h p = none
    · simp only [hp, and_self, if_true, Prod.mk.injEq, Option.some.injEq] at hnew
      obtain ⟨rfl, rfl⟩ := hnew
      have hpn : h p = none := hp.2
      refine ⟨hpn, hp.1, ⟨⟨?_, rfl, trivial, rfl, List.nodup_nil, List.nodup_nil, hp.1, ?_⟩, rfl⟩, ?_⟩
      · simp
      · intro c hc; cases hc
      · intro a ha
        simp [Function.update_noteq ha]
    · simp [hp] at hnew

theorem WF.tail_live {h : Heap} {q : Addr} {x : queue_t} {cells : List Cell}
    (hw : WF h q x cells) (t : Addr) (ht : x.tail = some t) : ∃ e, h t = some (.ele e) := by
  have hne : cells ≠ [] := by
    rintro rfl
    have := hw.2
    rw [ht] at this
    simp [last] at this
  obtain ⟨d, hd, _, hd2⟩ := last_mem_nodes cells hne
  have : t = d.node := Option.some.inj ((ht.symm.trans hw.2).trans hd2)
  obtain ⟨n, hn⟩ := linked_node h cells hw.1.links d hd
  exact ⟨_, this ▸ hn⟩

theorem insert_spec (h : Heap) (q : Addr) (x : queue_t) (cells : List Cell) (o : Ins)
    (hw : WF h q x cells)
    (hp : h o.node = none) (hpl : o.node < SIZE_MOD) (hv : h o.val = none)
    (hvl : o.val < SIZE_MOD) (hpv : o.val ≠ o.node) :
    ∃ g y, insert h (some q) o = .ok (true, g) ∧
      WF g q y (if o.atHead then ⟨o.node, o.val, text o.s ++ [0]⟩ :: cells
        else cells ++ [⟨o.node, o.val, text o.s ++ [0]⟩]) ∧
      (∀ a, h a = none → a ≠ o.node → a ≠ o.val → g a = none) := by
  have hq := hw.1.header
  by_cases hh : o.atHead = true
  · obtain ⟨g, h1, h2, h3⟩ := insert_head_spec h q o.node o.val x cells o.s hw.1
      (fun _ => hw.2) hp hpl hv hvl hpv
    refine ⟨g, _, by simpa [insert, hh] using h1, by simpa [hh] using h2, ?_⟩
    intro a ha a1 a2
    rw [h3 a (by rintro rfl; simp [ha] at hq) a1 a2, ha]
  · obtain ⟨g, h1, h2, h3⟩ := insert_tail_spec h q o.node o.val x cells o.s hw hp hpl hv hvl hpv
    refine ⟨g, _, by simpa [insert, hh] using h1, by simpa [hh] using h2, ?_⟩
    intro a ha a1 a2
    rw [h3 a (by rintro rfl; simp [ha] at hq) a1 a2 ?_, ha]
    intro he
    obtain ⟨e, he2⟩ := hw.tail_live a he.symm
    simp [ha] at he2

theorem run_inserts_spec (q : Addr) (ops : List Ins) :
    ∀ (h : Heap) (x : queue_t) (cells : List Cell), WF h q x cells →
      (∀ a ∈ answers ops, h a = none ∧ a < SIZE_MOD) → (answers ops).Nodup →
      ∃ g y ds, run_inserts h (some q) ops = .ok (true, g) ∧ WF g q y ds ∧
        elems ds = reference (elems cells) ops ∧
        ds.length = cells.length + ops.length ∧
        (∀ d ∈ ds, d ∈ cells ∨ ∃ o ∈ ops, d.bytes = text o.s ++ [0]) := by
  induction ops with
  | nil =>
    intro h x cells hw _ _
    exact ⟨h, x, cells, rfl, hw, rfl, rfl, fun d hd => Or.inl hd⟩
  | cons o os ih =>
    intro h x cells hw hfresh hnd
    have hans : answers (o :: os) = o.node :: o.val :: answers os := by
      simp [answers]
    rw [hans] at hfresh hnd
    obtain ⟨hn1, hnd1⟩ := List.nodup_cons.1 hnd
    obtain ⟨hn2, hnd2⟩ := List.nodup_cons.1 hnd1
    have fp := hfresh o.node (List.mem_cons_self _ _)
    have fv := hfresh o.val (List.mem_cons_of_mem _ (List.mem_cons_self _ _))
    have hpv : o.val ≠ o.node := by
      intro he
      apply hn1
      rw [he]
      exact List.mem_cons_self _ _
    obtain ⟨g, y, hg1, hg2, hg3⟩ := insert_spec h q x cells o hw fp.1 fp.2 fv.1 fv.2 hpv
    have hfresh2 : ∀ a ∈ answers os, g a = none ∧ a < SIZE_MOD := by
      intro a ha
      have fa := hfresh a (List.mem_cons_of_mem _ (List.mem_cons_of_mem _ ha))
      refine ⟨hg3 a fa.1 ?_ ?_, fa.2⟩
      · rintro rfl
        exact hn1 (List.mem_cons_of_mem _ ha)
      · rintro rfl
        exact hn2 ha
    obtain ⟨g2, y2, ds, hr1, hr2, hr3, hr4, hr5⟩ := ih g y _ hg2 hfresh2 hnd2
    refine ⟨g2, y2, ds, ?_, hr2, ?_, ?_, ?_⟩
    · simp [run_inserts, hg1, hr1]
    · rw [hr3]
      by_cases hh : o.atHead = true
      · simp [reference, elems, hh, text_text_zero]
      · simp [reference, elems, hh, text_text_zero]
    · rw [hr4]
      by_cases hh : o.atHead = true
      · simp [hh]; omega
      · simp [hh]; omega
    · intro d hd
      rcases hr5 d hd with hm | ⟨o2, ho2, hb⟩
      · by_cases hh : o.atHead = true
        · rw [if_pos hh] at hm
          rcases List.mem_cons.1 hm with rfl | hm
          · exact Or.inr ⟨o, List.mem_cons_self _ _, rfl⟩
          · exact Or.inl hm
        · rw [if_neg hh] at hm
          rcases List.mem_append.1 hm with hm | hm
          · exact Or.inl hm
          · rw [List.mem_singleton.1 hm]
            exact Or.inr ⟨o, List.mem_cons_self _ _, rfl⟩
      · exact Or.inr ⟨o2, List.mem_cons_of_mem _ ho2, hb⟩

theorem drain_empty (c : Nat) (q : Addr) (h : Heap) (x : queue_t)
    (hq : h q = some (.queue x)) (hh : x.head = none) :
    ∀ (m : Nat) (b : Nat → Nat),
      drain c m h (some q) b = .ok (List.replicate m none, h) := by
  intro m
  induction m with
  | zero => intro b; rfl
  | succ m ih =>
    intro b
    simp [drain, remove_head_empty h q x (some b) c hq hh, ih b, List.replicate_succ]

theorem drain_spec (c : Nat) (hc : c < SIZE_MOD) (q : Addr) (cells : List Cell) :
    ∀ (h : Heap) (x : queue_t) (b : Nat → Nat), Chained h q x cells →
      (∀ d ∈ cells, strlen d.bytes < c) → ∀ m, ∃ g,
      drain c (cells.length + m) h (some q) b =
        .ok ((elems cells).map some ++ List.replicate m none, g) := by
  induction cells with
  | nil =>
    intro h x b hch _ m
    refine ⟨h, ?_⟩
    simpa [elems] using drain_empty c q h x hch.header (by simpa [first] using hch.head_eq) m b
  | cons d ds ih =>
    intro h x b hch hlen m
    have hd := hlen d (List.mem_cons_self _ _)
    have hc1 : 1 ≤ c := by omega
    obtain ⟨g, hg1, hg2, -, -, -⟩ := remove_head_spec h q x d ds (some b) c hch
    obtain ⟨g2, hg3⟩ := ih g _ (bufAfter d.bytes c b) hg2
      (fun e he => hlen e (List.mem_cons_of_mem _ he)) m
    refine ⟨g2, ?_⟩
    have hrb : readback (bufAfter d.bytes c b) c = text d.bytes := by
      rw [readback_bufAfter d.bytes c b hc1 hc]
      exact List.take_of_length_le (by simp only [strlen] at hd; omega)
    rw [show (d :: ds).length + m = (ds.length + m) + 1 by simp; omega]
    simp [drain, hg1, hg3, hrb, elems]

/-! ### Failing calls -/

theorem bind_ok_elim {α β : Type} (m : Except Fault α) (f : α → Except Fault β) (b : β)
    (hb : (m >>= f) = .ok b) : ∃ a, m = .ok a ∧ f a = .ok b := by
  cases m with
  | error e => simp [bind, Except.bind] at hb
  | ok a => exact ⟨a, rfl, hb⟩

theorem malloc_some (h : Heap) (r : Option Addr) (p : Addr) (hm : malloc h r = some p) :
    r = some p ∧ p < SIZE_MOD ∧ h p = none := by
  unfold malloc at hm
  cases r with
  | none => simp at hm
  | some a =>
    simp only [Option.isNone_iff_eq_none] at hm
    by_cases ha : a < SIZE_MOD ∧ h a = none
    · simp only [ha, and_self, if_true, Option.some.injEq] at hm
      subst hm
      exact ⟨rfl, ha.1, ha.2⟩
    · simp [ha] at hm

/-- A block that is allocated and released at once leaves the heap as it was. -/
theorem free_fresh (h : Heap) (p : Addr) (b : Block) (hp : h p = none) :
    free (Function.update h p (some b)) (some p) = .ok h := by
  simp only [free, Function.update_same, Function.update_idem]
  rw [← hp, Function.update_eq_self]

theorem remove_head_false (h : Heap) (q : Option Addr) (buf : Option (Nat → Nat)) (n : Nat) :
    ∀ r, queue_remove_head h q buf n = .ok r → r.1 = false →
      r = (false, h, buf) ∧ (q = none ∨ ∃ x, loadQueue h q = .ok x ∧ x.head = none) := by
  intro r hr hf
  cases q with
  | none =>
    simp only [queue_remove_head, Except.ok.injEq] at hr
    exact ⟨hr.symm, Or.inl rfl⟩
  | some a =>
    unfold queue_remove_head at hr
    dsimp only at hr
    obtain ⟨x, hl, hr⟩ := bind_ok_elim _ _ _ hr
    cases hx : x.head with
    | none =>
      rw [hx] at hr
      simp only [pure, Except.pure, Except.ok.injEq] at hr
      exact ⟨hr.symm, Or.inr ⟨x, hl, hx⟩⟩
    | some p =>
      exfalso
      rw [hx] at hr
      dsimp only at hr
      repeat (obtain ⟨_, _, hr⟩ := bind_ok_elim _ _ _ hr)
      simp only [pure, Except.pure, Except.ok.injEq] at hr
      rw [← hr] at hf
      simp at hf

theorem loadQueue_ok (h : Heap) (q : Option Addr) (x : queue_t)
    (hl : loadQueue h q = .ok x) : ∃ a, q = some a ∧ h a = some (.queue x) := by
  cases q with
  | none => simp [loadQueue] at hl
  | some a =>
    refine ⟨a, rfl, ?_⟩
    unfold loadQueue at hl
    dsimp only at hl
    split at hl
    · rename_i y hy
      rw [hy]
      simp only [Except.ok.injEq] at hl
      rw [hl]
    · simp at hl

theorem insert_head_false (h : Heap) (q : Option Addr) (s : List Nat) (r1 r2 : Option Addr) :
    ∀ r, queue_insert_head h q s r1 r2 = .ok r → r.1 = false →
      r = (false, h) ∧ insertFails h q r1 r2 := by
  intro r hr hf
  cases q with
  | none =>
    simp only [queue_insert_head, Except.ok.injEq] at hr
    exact ⟨hr.symm, Or.inl rfl⟩
  | some a =>
    unfold queue_insert_head at hr
    dsimp only at hr
    cases hm1 : malloc h r1 with
    | none =>
      rw [hm1] at hr
      simp only [Except.ok.injEq] at hr
      exact ⟨hr.symm, Or.inr (Or.inl hm1)⟩
    | some p =>
      rw [hm1] at hr
      dsimp only at hr
      obtain ⟨-, -, hp⟩ := malloc_some h r1 p hm1
      cases hm2 : malloc (Function.update h p (some (.ele ⟨none, none⟩))) r2 with
      | none =>
        rw [hm2] at hr
        dsimp only at hr
        rw [free_fresh h p _ hp] at hr
        simp only [bind, Except.bind, pure, Except.pure, Except.ok.injEq] at hr
        exact ⟨hr.symm, Or.inr (Or.inr ⟨p, hm1, hm2⟩)⟩
      | some v =>
        exfalso
        rw [hm2] at hr
        dsimp only at hr
        repeat (obtain ⟨_, _, hr⟩ := bind_ok_elim _ _ _ hr)
        split at hr
        · obtain ⟨_, _, hr⟩ := bind_ok_elim _ _ _ hr
          simp only [pure, Except.pure, Except.ok.injEq] at hr
          rw [← hr] at hf
          simp at hf
        · simp only [pure, Except.pure, Except.ok.injEq] at hr
          rw [← hr] at hf
          simp at hf

theorem insert_tail_false (h : Heap) (q : Option Addr) (s : List Nat) (r1 r2 : Option Addr) :
    ∀ r, queue_insert_tail h q s r1 r2 = .ok r → r.1 = false →
      r = (false, h) ∧ insertFails h q r1 r2 := by
  intro r hr hf
  cases q with
  | none =>
    simp only [queue_insert_tail, Except.ok.injEq] at hr
    exact ⟨hr.symm, Or.inl rfl⟩
  | some a =>
    unfold queue_insert_tail at hr
    dsimp only at hr
    cases hm1 : malloc h r1 with
    | none =>
      rw [hm1] at hr
      simp only [Except.ok.injEq] at hr
      exact ⟨hr.symm, Or.inr (Or.inl hm1)⟩
    | some p =>
      rw [hm1] at hr
      dsimp only at hr
      obtain ⟨-, -, hp⟩ := malloc_some h r1 p hm1
      cases hm2 : malloc (Function.update h p (some (.ele ⟨none, none⟩))) r2 with
      | none =>
        rw [hm2] at hr
        dsimp only at hr
        rw [free_fresh h p _ hp] at hr
        simp only [bind, Except.bind, pure, Except.pure, Except.ok.injEq] at hr
        exact ⟨hr.symm, Or.inr (Or.inr ⟨p, hm1, hm2⟩)⟩
      | some v =>
        exfalso
        rw [hm2] at hr
        dsimp only at hr
        repeat (obtain ⟨_, _, hr⟩ := bind_ok_elim _ _ _ hr)
        simp only [pure, Except.pure, Except.ok.injEq] at hr
        rw [← hr] at hf
        simp at hf

theorem insert_fails_exec (h : Heap) (q : Option Addr) (s : List Nat) (r1 r2 : Option Addr)
    (hfail : insertFails h q r1 r2) :
    queue_insert_head h q s r1 r2 = .ok (false, h) ∧
      queue_insert_tail h q s r1 r2 = .ok (false, h) := by
  cases q with
  | none => exact ⟨rfl, rfl⟩
  | some a =>
    rcases hfail with hq | hm1 | ⟨p, hm1, hm2⟩
    · cases hq
    · simp [queue_insert_head, queue_insert_tail, hm1]
    · obtain ⟨-, -, hp⟩ := malloc_some h r1 p hm1
      simp [queue_insert_head, queue_insert_tail, hm1, hm2, free_fresh h p _ hp, bind,
        Except.bind, pure, Except.pure]

/-! ### The claims -/

/-- C1: on a queue just returned by `queue_new`, when every allocation
succeeds (the allocator answers distinct free addresses), a sequence of
`queue_insert_head` and `queue_insert_tail` calls returns `true` each time,
`queue_size` is then the number of insertions, and with a buffer larger than
every string, `queue_remove_head` called again and again succeeds exactly that
many times (every later call returns `false`) and yields the strings in the
order of the reference list (head insertions in front, tail insertions at the
end). -/
theorem insert_sequence_size_and_order (h0 : Heap) (r : Option Addr) (q : Addr) (h1 : Heap)
    (ops : List Ins) (c : Nat) (b : Nat → Nat)
    (hnew : queue_new h0 r = (some q, h1))
    (halloc : ∀ a ∈ answers ops, h1 a = none ∧ a < SIZE_MOD)
    (hdist : (answers ops).Nodup)
    (hbuf : ∀ o ∈ ops, strlen o.s < c) (hc : c < SIZE_MOD) :
    ∃ h2, run_inserts h1 (some q) ops = .ok (true, h2) ∧
      queue_size h2 (some q) = .ok ops.length ∧
      ∀ m, ∃ h3, drain c (ops.length + m) h2 (some q) b =
        .ok ((reference [] ops).map some ++ List.replicate m none, h3) := by
  obtain ⟨-, -, hw, -⟩ := queue_new_spec h0 r q h1 hnew
  obtain ⟨h2, y, ds, hr1, hr2, hr3, hr4, hr5⟩ :=
    run_inserts_spec q ops h1 _ [] hw halloc hdist
  have hlen : ds.length = ops.length := by simpa using hr4
  refine ⟨h2, hr1, ?_, ?_⟩
  · rw [queue_size_exec h2 q y hr2.1.header, hr2.1.head_eq, hr2.1.count, hlen]
    cases ds with
    | nil => simp [first, ← hlen]
    | cons d ds => simp [first]
  · intro m
    have hb : ∀ d ∈ ds, strlen d.bytes < c := by
      intro d hd
      rcases hr5 d hd with hm | ⟨o, ho, hbytes⟩
      · cases hm
      · rw [hbytes]
        have := hbuf o ho
        simpa [strlen, text_text_zero] using this
    obtain ⟨h3, hdr⟩ := drain_spec c hc q ds h2 y b hr2.1 hb m
    refine ⟨h3, ?_⟩
    rw [← hlen, hdr, hr3]
    rfl

/-- C1 at a concrete run: `"a"` at the tail, `"b"` at the head, `"c"` at the
tail, then four removals with a buffer of 8 bytes. -/
theorem insert_sequence_size_and_order_witness :
    ∃ h2, run_inserts (queue_new emptyHeap (some 0)).2 (some 0)
        [⟨false, [97], 1, 2⟩, ⟨true, [98], 3, 4⟩, ⟨false, [99], 5, 6⟩] = .ok (true, h2) ∧
      queue_size h2 (some 0) = .ok 3 ∧
      ∀ m, ∃ h3, drain 8 (3 + m) h2 (some 0) (fun _ => 7) =
        .ok ([some [98], some [97], some [99]] ++ List.replicate m none, h3) :=
  insert_sequence_size_and_order emptyHeap (some 0) 0 _
    [⟨false, [97], 1, 2⟩, ⟨true, [98], 3, 4⟩, ⟨false, [99], 5, 6⟩] 8 (fun _ => 7) rfl
    (by decide) (by decide) (by decide) (by decide)

/-- C2 (fails on the code): the run `queue_new`, `queue_insert_tail "a"`,
`queue_remove_head`, `queue_insert_tail "b"`.  The removal leaves `tail` on the
released element, so the second insertion goes through the stale `tail` and
never sets `head`.  When the allocator hands out new addresses the access to
the released element is invalid; when it hands out the released addresses
again, the call returns `true` with `size` 1 and `head` `NULL`: no element is
reached from `head`, and `queue_size` returns 0 after two insertions and one
removal. -/
theorem stale_tail_breaks_count :
    ∃ h2 h3 b h4,
      queue_insert_tail (queue_new emptyHeap (some 0)).2 (some 0) [97] (some 1) (some 2) =
        .ok (true, h2) ∧
      queue_remove_head h2 (some 0) none 0 = .ok (true, h3, b) ∧
      queue_insert_tail h3 (some 0) [98] (some 3) (some 4) = .error .invalidAccess ∧
      queue_insert_tail h3 (some 0) [98] (some 1) (some 2) = .ok (true, h4) ∧
      h4 0 = some (.queue ⟨none, some 1, 1⟩) ∧
      queue_size h4 (some 0) = .ok 0 :=
  ⟨_, _, _, _, rfl, rfl, rfl, rfl, rfl, rfl⟩

/-- C3 (fails on the code): the queue made by `queue_new` and
`queue_insert_tail "a"` holds one element, at address 1; it satisfies the
invariants.  After `queue_remove_head` its `head` is `NULL` and its `size` is
0, but its `tail` still is address 1, where no block lives any more. -/
theorem remove_last_leaves_tail :
    ∃ h2 h3 b,
      queue_insert_tail (queue_new emptyHeap (some 0)).2 (some 0) [97] (some 1) (some 2) =
        .ok (true, h2) ∧
      WF h2 0 ⟨some 1, some 1, 1⟩ [⟨1, 2, [97, 0]⟩] ∧
      queue_remove_head h2 (some 0) none 0 = .ok (true, h3, b) ∧
      h3 0 = some (.queue ⟨none, some 1, 0⟩) ∧ h3 1 = none :=
  ⟨_, _, _, rfl,
    ⟨⟨rfl, rfl, ⟨rfl, rfl, trivial⟩, rfl, by decide, by decide, by decide, by decide⟩, rfl⟩,
    rfl, rfl, rfl⟩

/-- C4: on a queue that satisfies the invariants and holds the elements
`c :: cs`, `queue_remove_head` with a buffer of stated size `n ≥ 1` returns
`true`; the elements reached from `head` are then `cs` and `size` is one less;
the buffer starts with the first `min (strlen v) (n - 1)` characters of the
removed string `v`, followed by a zero byte. -/
theorem remove_head_effect (h : Heap) (q : Addr) (x : queue_t) (c : Cell) (cs : List Cell)
    (b : Nat → Nat) (n : Nat) (hw : WF h q x (c :: cs)) (h1 : 1 ≤ n) (h2 : n < SIZE_MOD) :
    ∃ g y b1, queue_remove_head h (some q) (some b) n = .ok (true, g, some b1) ∧
      Chained g q y cs ∧ y.size + 1 = x.size ∧
      (List.range (min (strlen c.bytes) (n - 1) + 1)).map b1 =
        (text c.bytes).take (min (strlen c.bytes) (n - 1)) ++ [0] := by
  obtain ⟨g, hg1, hg2, -, -, -⟩ := remove_head_spec h q x c cs (some b) n hw.1
  refine ⟨g, _, _, hg1, hg2, ?_, head_bufAfter c.bytes n b h1 h2⟩
  rw [hw.1.count]
  rfl

/-- C4 at a concrete queue: the strings `"hi"` and `"a"`, a buffer of 2 bytes. -/
theorem remove_head_effect_witness :
    ∃ g y b1,
      queue_remove_head
        (fun a => if a = 0 then some (.queue ⟨some 1, some 3, 2⟩)
          else if a = 1 then some (.ele ⟨some 2, some 3⟩)
          else if a = 2 then some (.chars [104, 105, 0])
          else if a = 3 then some (.ele ⟨some 4, none⟩)
          else if a = 4 then some (.chars [97, 0]) else none)
        (some 0) (some (fun _ => 7)) 2 = .ok (true, g, some b1) ∧
      Chained g 0 y [⟨3, 4, [97, 0]⟩] ∧ y.size + 1 = 2 ∧
      (List.range (min (strlen [104, 105, 0]) (2 - 1) + 1)).map b1 =
        (text [104, 105, 0]).take (min (strlen [104, 105, 0]) (2 - 1)) ++ [0] :=
  remove_head_effect _ 0 ⟨some 1, some 3, 2⟩ ⟨1, 2, [104, 105, 0]⟩ [⟨3, 4, [97, 0]⟩]
    (fun _ => 7) 2
    ⟨⟨rfl, rfl, ⟨rfl, rfl, rfl, rfl, trivial⟩, rfl, by decide, by decide, by decide, by decide⟩,
      rfl⟩
    (by decide) (by decide)

/-- Insertion followed at once by `queue_remove_head`, on queues that satisfy
the invariants (so an empty queue has `tail` `NULL`).  For every string `s` and
every buffer of stated size `n ≥ 1`, after a successful `queue_insert_head`,
and after a successful `queue_insert_tail` on an empty queue,
`queue_remove_head` returns `true`, the buffer starts with the first
`min (strlen s) (n - 1)` characters of `s` followed by a zero byte, and the
elements reached from `head`, `size` and `queue_size` are those from before
the insertion.  An empty queue whose `tail` is stale (left by the removal of
the last element) is not covered. -/
theorem insert_then_remove (h : Heap) (q p v : Addr) (x : queue_t) (cells : List Cell)
    (s : List Nat) (b : Nat → Nat) (n : Nat) (hw : WF h q x cells)
    (hp : h p = none) (hpl : p < SIZE_MOD) (hv : h v = none) (hvl : v < SIZE_MOD)
    (hpv : v ≠ p) (h1 : 1 ≤ n) (h2 : n < SIZE_MOD) :
    (∃ g1 g2 y b1, queue_insert_head h (some q) s (some p) (some v) = .ok (true, g1) ∧
      queue_remove_head g1 (some q) (some b) n = .ok (true, g2, some b1) ∧
      (List.range (min (strlen s) (n - 1) + 1)).map b1 =
        (text s).take (min (strlen s) (n - 1)) ++ [0] ∧
      Chained g2 q y cells ∧ y.size = x.size ∧
      queue_size g2 (some q) = queue_size h (some q)) ∧
    (cells = [] →
      ∃ g1 g2 y b1, queue_insert_tail h (some q) s (some p) (some v) = .ok (true, g1) ∧
        queue_remove_head g1 (some q) (some b) n = .ok (true, g2, some b1) ∧
        (List.range (min (strlen s) (n - 1) + 1)).map b1 =
          (text s).take (min (strlen s) (n - 1)) ++ [0] ∧
        Chained g2 q y cells ∧ y.size = x.size ∧
        queue_size g2 (some q) = queue_size h (some q)) := by
  have hbuf : (List.range (min (strlen s) (n - 1) + 1)).map (bufAfter (text s ++ [0]) n b) =
      (text s).take (min (strlen s) (n - 1)) ++ [0] := by
    have := head_bufAfter (text s ++ [0]) n b h1 h2
    simpa only [strlen, text_text_zero] using this
  have hsize : ∀ (g : Heap) (t : Option Addr),
      Chained g q ⟨first cells, t, cells.length⟩ cells →
      queue_size g (some q) = queue_size h (some q) := by
    intro g t hg
    rw [queue_size_exec g q _ hg.header, queue_size_exec h q x hw.1.header, hw.1.head_eq,
      hw.1.count]
  constructor
  · obtain ⟨g1, e1, w1, -⟩ := insert_head_spec h q p v x cells s hw.1 (fun _ => hw.2)
      hp hpl hv hvl hpv
    obtain ⟨g2, e2, w2, -, -, -⟩ := remove_head_spec g1 q _ _ cells (some b) n w1.1
    exact ⟨g1, g2, _, _, e1, e2, hbuf, w2, hw.1.count.symm, hsize g2 _ w2⟩
  · intro hnil
    obtain ⟨g1, e1, w1, -⟩ := insert_tail_spec h q p v x cells s hw hp hpl hv hvl hpv
    subst hnil
    obtain ⟨g2, e2, w2, -, -, -⟩ := remove_head_spec g1 q _ _ [] (some b) n w1.1
    exact ⟨g1, g2, _, _, e1, e2, hbuf, w2, hw.1.count.symm, hsize g2 _ w2⟩

/-- The theorem `insert_then_remove` at a concrete input: `"hello"` inserted
into a new queue and removed into a buffer of 3 bytes, which then holds `"he"`
and the terminator. -/
theorem insert_then_remove_witness :
    (∃ g1 g2 y b1,
      queue_insert_head (queue_new emptyHeap (some 0)).2 (some 0) [104, 101, 108, 108, 111]
        (some 1) (some 2) = .ok (true, g1) ∧
      queue_remove_head g1 (some 0) (some (fun _ => 7)) 3 = .ok (true, g2, some b1) ∧
      (List.range 3).map b1 = [104, 101, 0] ∧
      Chained g2 0 y [] ∧ y.size = 0 ∧
      queue_size g2 (some 0) = queue_size (queue_new emptyHeap (some 0)).2 (some 0)) ∧
    (([] : List Cell) = [] →
      ∃ g1 g2 y b1,
        queue_insert_tail (queue_new emptyHeap (some 0)).2 (some 0) [104, 101, 108, 108, 111]
          (some 1) (some 2) = .ok (true, g1) ∧
        queue_remove_head g1 (some 0) (some (fun _ => 7)) 3 = .ok (true, g2, some b1) ∧
        (List.range 3).map b1 = [104, 101, 0] ∧
        Chained g2 0 y [] ∧ y.size = 0 ∧
        queue_size g2 (some 0) = queue_size (queue_new emptyHeap (some 0)).2 (some 0)) :=
  insert_then_remove (queue_new emptyHeap (some 0)).2 0 1 2 ⟨none, none, 0⟩ []
    [104, 101, 108, 108, 111] (fun _ => 7) 3
    ⟨⟨rfl, rfl, trivial, rfl, by decide, by decide, by decide, by decide⟩, rfl⟩
    rfl (by decide) rfl (by decide) (by decide) (by decide) (by decide)

/-- C5 (fails on the code for `queue_insert_tail` on a queue emptied by a
removal): the run `queue_new`, `queue_insert_tail "a"`, `queue_remove_head`
leaves an empty queue (`head` is `NULL`, `size` is 0, `queue_size` returns 0)
whose `tail` still is the released element.  On this empty queue, with the
allocator answering the two addresses just released,
`queue_insert_tail "hello"` returns `true` but goes through the stale `tail`
and never sets `head`; the `queue_remove_head` that follows at once, with a
buffer of 3 bytes, returns `false` and leaves the buffer as it was, so
`"he"` is not given back.  With new addresses from the allocator the insertion
is an invalid access to the released element. -/
theorem insert_tail_then_remove_on_emptied_queue :
    ∃ h2 h3 b h4,
      queue_insert_tail (queue_new emptyHeap (some 0)).2 (some 0) [97] (some 1) (some 2) =
        .ok (true, h2) ∧
      queue_remove_head h2 (some 0) none 0 = .ok (true, h3, b) ∧
      h3 0 = some (.queue ⟨none, some 1, 0⟩) ∧ h3 1 = none ∧
      queue_size h3 (some 0) = .ok 0 ∧
      queue_insert_tail h3 (some 0) [104, 101, 108, 108, 111] (some 1) (some 2) =
        .ok (true, h4) ∧
      h4 0 = some (.queue ⟨none, some 1, 1⟩) ∧
      queue_remove_head h4 (some 0) (some (fun _ => 7)) 3 =
        .ok (false, h4, some (fun _ => 7)) ∧
      queue_insert_tail h3 (some 0) [104, 101, 108, 108, 111] (some 3) (some 4) =
        .error .invalidAccess :=
  ⟨_, _, _, _, rfl, rfl, rfl, rfl, rfl, rfl, rfl, rfl, rfl⟩

/-- C6: on a queue that satisfies the invariants, with elements `cells`,
`queue_reverse` (given fuel for its `n - 1` loop iterations) ends; the queue
satisfies the invariants again, its elements reached from `head` are the same
elements in reverse order, so the strings are those of before, reversed;
`size` is unchanged, the former tail element is `head`, the former head
element is `tail`, and the link of the new tail is `NULL`. -/
theorem reverse_effect (fuel : Nat) (h : Heap) (q : Addr) (x : queue_t) (cells : List Cell)
    (hw : WF h q x cells) (hfuel : cells.length ≤ fuel + 1) :
    ∃ g y, queue_reverse fuel h (some q) = .ok g ∧ WF g q y cells.reverse ∧
      elems cells.reverse = (elems cells).reverse ∧
      (elems cells.reverse).Perm (elems cells) ∧
      y.size = x.size ∧ y.head = x.tail ∧ y.tail = x.head ∧
      (∀ t, y.tail = some t → ∃ e, g t = some (.ele e) ∧ e.next = none) := by
  obtain ⟨g, hg1, hg2, -⟩ := queue_reverse_spec fuel h q x cells hw hfuel
  refine ⟨g, _, hg1, hg2, ?_, ?_, hw.1.count.symm, hw.2.symm, hw.1.head_eq.symm, ?_⟩
  · simp [elems]
  · simp [elems]
  · intro t ht
    exact hg2.tail_link t ht

/-- C6 at a concrete queue: `"a"`, `"b"`, `"c"` inserted at the tail, then
reversed with fuel for two iterations; the four calls of `queue_remove_head`
that follow yield `"c"`, `"b"`, `"a"` and fail. -/
theorem reverse_effect_witness :
    (∃ g y,
      queue_reverse 2
        (fun a => if a = 0 then some (.queue ⟨some 1, some 5, 3⟩)
          else if a = 1 then some (.ele ⟨some 2, some 3⟩)
          else if a = 2 then some (.chars [97, 0])
          else if a = 3 then some (.ele ⟨some 4, some 5⟩)
          else if a = 4 then some (.chars [98, 0])
          else if a = 5 then some (.ele ⟨some 6, none⟩)
          else if a = 6 then some (.chars [99, 0]) else none) (some 0) = .ok g ∧
      WF g 0 y [⟨5, 6, [99, 0]⟩, ⟨3, 4, [98, 0]⟩, ⟨1, 2, [97, 0]⟩] ∧
      elems [⟨5, 6, [99, 0]⟩, ⟨3, 4, [98, 0]⟩, ⟨1, 2, [97, 0]⟩] = [[99], [98], [97]] ∧
      (elems [⟨5, 6, [99, 0]⟩, ⟨3, 4, [98, 0]⟩, ⟨1, 2, [97, 0]⟩]).Perm
        (elems [⟨1, 2, [97, 0]⟩, ⟨3, 4, [98, 0]⟩, ⟨5, 6, [99, 0]⟩]) ∧
      y.size = 3 ∧ y.head = some 5 ∧ y.tail = some 1 ∧
      (∀ t, y.tail = some t → ∃ e, g t = some (.ele e) ∧ e.next = none)) ∧
    (∃ h1 h2 h3 h4 h5,
      queue_insert_tail (queue_new emptyHeap (some 0)).2 (some 0) [97] (some 1) (some 2) =
        .ok (true, h1) ∧
      queue_insert_tail h1 (some 0) [98] (some 3) (some 4) = .ok (true, h2) ∧
      queue_insert_tail h2 (some 0) [99] (some 5) (some 6) = .ok (true, h3) ∧
      queue_reverse 2 h3 (some 0) = .ok h4 ∧
      drain 4 4 h4 (some 0) (fun _ => 7) = .ok ([some [99], some [98], some [97], none], h5)) :=
  ⟨reverse_effect 2 _ 0 ⟨some 1, some 5, 3⟩
      [⟨1, 2, [97, 0]⟩, ⟨3, 4, [98, 0]⟩, ⟨5, 6, [99, 0]⟩]
      ⟨⟨rfl, rfl, ⟨rfl, rfl, rfl, rfl, rfl, rfl, trivial⟩, rfl, by decide, by decide,
        by decide, by decide⟩, rfl⟩ (by decide),
    ⟨_, _, _, _, _, rfl, rfl, rfl, rfl, rfl⟩⟩

/-- C7: `queue_reverse` is its own inverse.  On a queue that satisfies the
invariants (the empty queue and one-element queues included), two calls of
`queue_reverse` end and give back the very heap of before: the same header
(`head`, `tail`, `size`), the same elements with the same links and strings. -/
theorem reverse_reverse (f1 f2 : Nat) (h : Heap) (q : Addr) (x : queue_t)
    (cells : List Cell) (hw : WF h q x cells) (hf1 : cells.length ≤ f1 + 1)
    (hf2 : cells.length ≤ f2 + 1) :
    ∃ g, queue_reverse f1 h (some q) = .ok g ∧ queue_reverse f2 g (some q) = .ok h := by
  obtain ⟨g, hg1, hg2, hg3⟩ := queue_reverse_spec f1 h q x cells hw hf1
  obtain ⟨g2, hk1, hk2, hk3⟩ := queue_reverse_spec f2 g q _ cells.reverse hg2 (by simpa using hf2)
  refine ⟨g, hg1, ?_⟩
  rw [hk1]
  congr 1
  funext a
  by_cases haq : a = q
  · subst haq
    rw [hk2.1.header, hw.1.header, last_reverse, first_reverse, List.length_reverse]
    cases x
    simp only [Option.some.injEq, Block.queue.injEq, queue_t.mk.injEq]
    exact ⟨hw.1.head_eq.symm, hw.2.symm, hw.1.count.symm⟩
  · by_cases han : a ∈ cells.map Cell.node
    · obtain ⟨c, hc, rfl⟩ := List.mem_map.1 han
      have hl : linked g2 cells := by simpa using hk2.1.links
      exact linked_agree h g2 cells hw.1.links hl c hc
    · rw [hk3 a haq (by simpa using han), hg3 a haq han]

/-- C7 at concrete queues: the empty queue, and a queue of two elements. -/
theorem reverse_reverse_witness :
    (∃ g, queue_reverse 0 (queue_new emptyHeap (some 0)).2 (some 0) = .ok g ∧
      queue_reverse 0 g (some 0) = .ok (queue_new emptyHeap (some 0)).2) ∧
    (∃ g,
      queue_reverse 1
        (fun a => if a = 0 then some (.queue ⟨some 1, some 3, 2⟩)
          else if a = 1 then some (.ele ⟨some 2, some 3⟩)
          else if a = 2 then some (.chars [97, 0])
          else if a = 3 then some (.ele ⟨some 4, none⟩)
          else if a = 4 then some (.chars [98, 0]) else none) (some 0) = .ok g ∧
      queue_reverse 1 g (some 0) = .ok
        (fun a => if a = 0 then some (.queue ⟨some 1, some 3, 2⟩)
          else if a = 1 then some (.ele ⟨some 2, some 3⟩)
          else if a = 2 then some (.chars [97, 0])
          else if a = 3 then some (.ele ⟨some 4, none⟩)
          else if a = 4 then some (.chars [98, 0]) else none)) :=
  ⟨reverse_reverse 0 0 _ 0 ⟨none, none, 0⟩ []
      ⟨⟨rfl, rfl, trivial, rfl, by decide, by decide, by decide, by decide⟩, rfl⟩
      (by decide) (by decide),
    reverse_reverse 1 1 _ 0 ⟨some 1, some 3, 2⟩ [⟨1, 2, [97, 0]⟩, ⟨3, 4, [98, 0]⟩]
      ⟨⟨rfl, rfl, ⟨rfl, rfl, rfl, rfl, trivial⟩, rfl, by decide, by decide, by decide,
        by decide⟩, rfl⟩
      (by decide) (by decide)⟩

/-- C8 (fails on the code for a buffer of stated size 0): on the queue made by
`queue_new` and `queue_insert_tail "a"`, `queue_remove_head` with a buffer and
the stated size 0 computes `bufsize - 1` as `2 ^ 64 - 1`: it writes the
character `'a'` at index 0, zero bytes after it, and a zero byte at index
`2 ^ 64 - 1`.  With no buffer (`NULL`) the same call writes nothing. -/
theorem remove_head_size_zero_writes :
    ∃ h2 h3 b1,
      queue_insert_tail (queue_new emptyHeap (some 0)).2 (some 0) [97] (some 1) (some 2) =
        .ok (true, h2) ∧
      queue_remove_head h2 (some 0) (some (fun _ => 7)) 0 = .ok (true, h3, some b1) ∧
      b1 0 = 97 ∧ b1 1 = 0 ∧ b1 (2 ^ 64 - 1) = 0 ∧
      queue_remove_head h2 (some 0) none 0 = .ok (true, h3, none) :=
  ⟨_, _, _, rfl, rfl, rfl, rfl, rfl, rfl⟩

/-- C9: `queue_remove_head` returns `false` exactly when the queue pointer is
`NULL` or the queue it points to has `head` `NULL`; whenever it returns
`false`, the heap (header and every element) and the buffer are unchanged.
On a queue just returned by `queue_new` it returns `false`, and `queue_size`
is 0 before and after. -/
theorem remove_head_failure (h : Heap) (q : Option Addr) (buf : Option (Nat → Nat))
    (n : Nat) (r : Option Addr) :
    ((∃ g b, queue_remove_head h q buf n = .ok (false, g, b)) ↔
      (q = none ∨ ∃ x, loadQueue h q = .ok x ∧ x.head = none)) ∧
    (∀ g b, queue_remove_head h q buf n = .ok (false, g, b) → g = h ∧ b = buf) ∧
    (∀ a, (queue_new h r).1 = some a →
      queue_size (queue_new h r).2 (some a) = .ok 0 ∧
      queue_remove_head (queue_new h r).2 (some a) buf n =
        .ok (false, (queue_new h r).2, buf)) := by
  refine ⟨⟨?_, ?_⟩, ?_, ?_⟩
  · rintro ⟨g, b, hr⟩
    exact (remove_head_false h q buf n _ hr rfl).2
  · rintro (rfl | ⟨x, hl, hx⟩)
    · exact ⟨h, buf, rfl⟩
    · obtain ⟨a, rfl, ha⟩ := loadQueue_ok h q x hl
      exact ⟨h, buf, remove_head_empty h a x buf n ha hx⟩
  · intro g b hr
    have := (remove_head_false h q buf n _ hr rfl).1
    simp only [Prod.mk.injEq, true_and] at this
    exact this
  · intro a ha
    obtain ⟨-, -, hw, -⟩ := queue_new_spec h r a (queue_new h r).2 (Prod.ext ha rfl)
    exact ⟨by rw [queue_size_exec _ a _ hw.1.header]; rfl,
      remove_head_empty _ a _ buf n hw.1.header rfl⟩

/-- C10: `queue_insert_head` and `queue_insert_tail` return `false` exactly
when the queue pointer is `NULL` or one of the two calls of `malloc` fails
(`insertFails`); whenever they return `false` the heap is the one of before
the call: header, elements, strings, and nothing allocated. -/
theorem insert_failure (h : Heap) (q : Option Addr) (s : List Nat) (r1 r2 : Option Addr) :
    ((∃ g, queue_insert_head h q s r1 r2 = .ok (false, g)) ↔ insertFails h q r1 r2) ∧
    (∀ g, queue_insert_head h q s r1 r2 = .ok (false, g) → g = h) ∧
    ((∃ g, queue_insert_tail h q s r1 r2 = .ok (false, g)) ↔ insertFails h q r1 r2) ∧
    (∀ g, queue_insert_tail h q s r1 r2 = .ok (false, g) → g = h) := by
  refine ⟨⟨?_, ?_⟩, ?_, ⟨?_, ?_⟩, ?_⟩
  · rintro ⟨g, hr⟩
    exact (insert_head_false h q s r1 r2 _ hr rfl).2
  · intro hfail
    exact ⟨h, (insert_fails_exec h q s r1 r2 hfail).1⟩
  · intro g hr
    have := (insert_head_false h q s r1 r2 _ hr rfl).1
    simp only [Prod.mk.injEq, true_and] at this
    exact this
  · rintro ⟨g, hr⟩
    exact (insert_tail_false h q s r1 r2 _ hr rfl).2
  · intro hfail
    exact ⟨h, (insert_fails_exec h q s r1 r2 hfail).2⟩
  · intro g hr
    have := (insert_tail_false h q s r1 r2 _ hr rfl).1
    simp only [Prod.mk.injEq, true_and] at this
    exact this

/-- C9 at concrete inputs: a `NULL` queue, and a new queue with a buffer. -/
theorem remove_head_failure_witness :
    (∃ g b, queue_remove_head emptyHeap none (some (fun _ => 7)) 4 = .ok (false, g, b)) ∧
    (queue_size (queue_new emptyHeap (some 0)).2 (some 0) = .ok 0 ∧
      queue_remove_head (queue_new emptyHeap (some 0)).2 (some 0) (some (fun _ => 7)) 4 =
        .ok (false, (queue_new emptyHeap (some 0)).2, some (fun _ => 7))) :=
  ⟨(remove_head_failure emptyHeap none (some (fun _ => 7)) 4 none).1.2 (Or.inl rfl),
    (remove_head_failure emptyHeap (some 0) (some (fun _ => 7)) 4 (some 0)).2.2 0 rfl⟩

/-- C10 at concrete inputs: on a new queue, the allocation of the element
fails, or that of the string fails; both calls return `false`. -/
theorem insert_failure_witness :
    (∃ g, queue_insert_head (queue_new emptyHeap (some 0)).2 (some 0) [97] none (some 2) =
      .ok (false, g)) ∧
    (∃ g, queue_insert_tail (queue_new emptyHeap (some 0)).2 (some 0) [97] (some 1) none =
      .ok (false, g)) :=
  ⟨(insert_failure (queue_new emptyHeap (some 0)).2 (some 0) [97] none (some 2)).1.2
      (Or.inr (Or.inl rfl)),
    (insert_failure (queue_new emptyHeap (some 0)).2 (some 0) [97] (some 1) none).2.2.1.2
      (Or.inr (Or.inr ⟨1, rfl, rfl⟩))⟩

/-! ### Insertion on a well-formed queue -/

/-- In a chain that ends with `c0`, the element before it links to `c0`. -/
theorem linked_snoc_link (g : Heap) (cs : List Cell) (c0 d : Cell)
    (hl : linked g (cs ++ [c0])) (hd : cs.getLast? = some d) :
    g d.node = some (.ele ⟨some d.vptr, some c0.node⟩) := by
  induction cs with
  | nil => simp at hd
  | cons c cs ih =>
    cases cs with
    | nil =>
      simp only [List.getLast?_singleton, Option.some.injEq] at hd
      subst hd
      exact hl.1
    | cons e es =>
      rw [List.getLast?_cons_cons] at hd
      exact ih hl.2.2 hd

/-- C11: on a queue that satisfies the invariants, with elements `cells`, a
successful `queue_insert_tail` (both allocations succeed) returns `true` and
leaves a queue that satisfies the invariants again, whose elements are `cells`
followed by the new element; the strings are those of before followed by `s`,
`size` is one more, the new element is `tail` and its link is `NULL`, the
former tail element links to it, and when the queue was empty the new element
is `head` as well (`head` is unchanged otherwise). -/
theorem insert_tail_effect (h : Heap) (q p v : Addr) (x : queue_t) (cells : List Cell)
    (s : List Nat) (hw : WF h q x cells)
    (hp : h p = none) (hpl : p < SIZE_MOD) (hv : h v = none) (hvl : v < SIZE_MOD)
    (hpv : v ≠ p) :
    ∃ g y, queue_insert_tail h (some q) s (some p) (some v) = .ok (true, g) ∧
      WF g q y (cells ++ [⟨p, v, text s ++ [0]⟩]) ∧
      elems (cells ++ [⟨p, v, text s ++ [0]⟩]) = elems cells ++ [text s] ∧
      y.size = x.size + 1 ∧ y.tail = some p ∧
      g p = some (.ele ⟨some v, none⟩) ∧
      (∀ t, x.tail = some t → ∃ e, g t = some (.ele e) ∧ e.next = some p) ∧
      (cells = [] → y.head = some p) ∧ (cells ≠ [] → y.head = x.head) := by
  obtain ⟨g, hg1, hg2, -⟩ := insert_tail_spec h q p v x cells s hw hp hpl hv hvl hpv
  refine ⟨g, _, hg1, hg2, ?_, ?_, rfl, ?_, ?_, ?_, ?_⟩
  · simp [elems, text_text_zero]
  · rw [hw.1.count]
  · exact linked_last g _ ⟨p, v, text s ++ [0]⟩ hg2.1.links (by simp)
  · intro t ht
    have hne : cells ≠ [] := by
      rintro rfl
      have := hw.2
      rw [ht] at this
      simp [last] at this
    obtain ⟨d, _, hd1, hd2⟩ := last_mem_nodes cells hne
    have htd : t = d.node := Option.some.inj ((ht.symm.trans hw.2).trans hd2)
    exact ⟨_, htd ▸ linked_snoc_link g cells _ d hg2.1.links hd1, rfl⟩
  · intro hnil
    simp [hnil]
  · intro hne
    simp [hne]

/-- C11 at concrete queues: `"b"` inserted at the tail of the queue that holds
`"a"`, and of the empty queue. -/
theorem insert_tail_effect_witness :
    (∃ g y,
      queue_insert_tail
        (fun a => if a = 0 then some (.queue ⟨some 1, some 1, 1⟩)
          else if a = 1 then some (.ele ⟨some 2, none⟩)
          else if a = 2 then some (.chars [97, 0]) else none)
        (some 0) [98] (some 3) (some 4) = .ok (true, g) ∧
      WF g 0 y [⟨1, 2, [97, 0]⟩, ⟨3, 4, [98, 0]⟩] ∧
      elems [⟨1, 2, [97, 0]⟩, ⟨3, 4, [98, 0]⟩] = [[97], [98]] ∧
      y.size = 1 + 1 ∧ y.tail = some 3 ∧
      g 3 = some (.ele ⟨some 4, none⟩) ∧
      (∀ t, some 1 = some t → ∃ e, g t = some (.ele e) ∧ e.next = some 3) ∧
      (([⟨1, 2, [97, 0]⟩] : List Cell) = [] → y.head = some 3) ∧
      (([⟨1, 2, [97, 0]⟩] : List Cell) ≠ [] → y.head = some 1)) ∧
    (∃ g y,
      queue_insert_tail (queue_new emptyHeap (some 0)).2 (some 0) [98] (some 3) (some 4) =
        .ok (true, g) ∧
      WF g 0 y [⟨3, 4, [98, 0]⟩] ∧
      elems [⟨3, 4, [98, 0]⟩] = [[98]] ∧
      y.size = 0 + 1 ∧ y.tail = some 3 ∧
      g 3 = some (.ele ⟨some 4, none⟩) ∧
      (∀ t, (none : Option Addr) = some t → ∃ e, g t = some (.ele e) ∧ e.next = some 3) ∧
      (([] : List Cell) = [] → y.head = some 3) ∧
      (([] : List Cell) ≠ [] → y.head = none)) :=
  ⟨insert_tail_effect _ 0 3 4 ⟨some 1, some 1, 1⟩ [⟨1, 2, [97, 0]⟩] [98]
      ⟨⟨rfl, rfl, ⟨rfl, rfl, trivial⟩, rfl, by decide, by decide, by decide, by decide⟩, rfl⟩
      rfl (by decide) rfl (by decide) (by decide),
    insert_tail_effect (queue_new emptyHeap (some 0)).2 0 3 4 ⟨none, none, 0⟩ [] [98]
      ⟨⟨rfl, rfl, trivial, rfl, by decide, by decide, by decide, by decide⟩, rfl⟩
      rfl (by decide) rfl (by decide) (by decide)⟩

/-- C12: on a queue that satisfies the invariants, with elements `cells`, a
successful `queue_insert_head` (both allocations succeed) returns `true` and
leaves a queue that satisfies the invariants again, whose elements are the new
element followed by `cells`; the strings are `s` followed by those of before,
`size` is one more, the new element is `head` and links to the former head;
when the queue was empty (`head` was `NULL`) the new element is `tail` as
well, and `tail` is unchanged otherwise. -/
theorem insert_head_effect (h : Heap) (q p v : Addr) (x : queue_t) (cells : List Cell)
    (s : List Nat) (hw : WF h q x cells)
    (hp : h p = none) (hpl : p < SIZE_MOD) (hv : h v = none) (hvl : v < SIZE_MOD)
    (hpv : v ≠ p) :
    ∃ g y, queue_insert_head h (some q) s (some p) (some v) = .ok (true, g) ∧
      WF g q y (⟨p, v, text s ++ [0]⟩ :: cells) ∧
      elems (⟨p, v, text s ++ [0]⟩ :: cells) = text s :: elems cells ∧
      y.size = x.size + 1 ∧ y.head = some p ∧
      g p = some (.ele ⟨some v, x.head⟩) ∧
      (x.head = none → y.tail = some p) ∧ (x.head ≠ none → y.tail = x.tail) := by
  obtain ⟨g, hg1, hg2, -⟩ := insert_head_spec h q p v x cells s hw.1 (fun _ => hw.2)
    hp hpl hv hvl hpv
  have hnil : x.head = none ↔ cells = [] := by
    rw [hw.1.head_eq]
    cases cells <;> simp [first]
  refine ⟨g, _, hg1, hg2, ?_, ?_, rfl, ?_, ?_, ?_⟩
  · simp [elems, text_text_zero]
  · rw [hw.1.count]
  · rw [hw.1.head_eq]
    exact hg2.1.links.1
  · intro hx
    simp [hnil.1 hx]
  · intro hx
    have : cells ≠ [] := fun hc => hx (hnil.2 hc)
    simp [this]

/-- C12 at concrete queues: `"b"` inserted at the head of the queue that holds
`"a"`, and of the empty queue. -/
theorem insert_head_effect_witness :
    (∃ g y,
      queue_insert_head
        (fun a => if a = 0 then some (.queue ⟨some 1, some 1, 1⟩)
          else if a = 1 then some (.ele ⟨some 2, none⟩)
          else if a = 2 then some (.chars [97, 0]) else none)
        (some 0) [98] (some 3) (some 4) = .ok (true, g) ∧
      WF g 0 y [⟨3, 4, [98, 0]⟩, ⟨1, 2, [97, 0]⟩] ∧
      elems [⟨3, 4, [98, 0]⟩, ⟨1, 2, [97, 0]⟩] = [[98], [97]] ∧
      y.size = 1 + 1 ∧ y.head = some 3 ∧
      g 3 = some (.ele ⟨some 4, some 1⟩) ∧
      (some 1 = (none : Option Addr) → y.tail = some 3) ∧
      (some 1 ≠ (none : Option Addr) → y.tail = some 1)) ∧
    (∃ g y,
      queue_insert_head (queue_new emptyHeap (some 0)).2 (some 0) [98] (some 3) (some 4) =
        .ok (true, g) ∧
      WF g 0 y [⟨3, 4, [98, 0]⟩] ∧
      elems [⟨3, 4, [98, 0]⟩] = [[98]] ∧
      y.size = 0 + 1 ∧ y.head = some 3 ∧
      g 3 = some (.ele ⟨some 4, none⟩) ∧
      ((none : Option Addr) = none → y.tail = some 3) ∧
      ((none : Option Addr) ≠ none → y.tail = none)) :=
  ⟨insert_head_effect _ 0 3 4 ⟨some 1, some 1, 1⟩ [⟨1, 2, [97, 0]⟩] [98]
      ⟨⟨rfl, rfl, ⟨rfl, rfl, trivial⟩, rfl, by decide, by decide, by decide, by decide⟩, rfl⟩
      rfl (by decide) rfl (by decide) (by decide),
    insert_head_effect (queue_new emptyHeap (some 0)).2 0 3 4 ⟨none, none, 0⟩ [] [98]
      ⟨⟨rfl, rfl, trivial, rfl, by decide, by decide, by decide, by decide⟩, rfl⟩
      rfl (by decide) rfl (by decide) (by decide)⟩

/-! ### Frame of the reversal, absent queues, the buffer -/

/-- C13: `queue_reverse` only relinks.  On a queue that satisfies the
invariants, the call (given fuel for its loop) ends, and afterwards: `size` in
the header is unchanged; exactly the same addresses hold a live block (nothing
allocated, nothing released); every list element keeps its `value` pointer and
every character array its bytes; every block other than the header and the
elements of the chain is unchanged.  So only `next` links and `head` and
`tail` change. -/
theorem reverse_only_relinks (fuel : Nat) (h : Heap) (q : Addr) (x : queue_t)
    (cells : List Cell) (hw : WF h q x cells) (hfuel : cells.length ≤ fuel + 1) :
    ∃ g y, queue_reverse fuel h (some q) = .ok g ∧ g q = some (.queue y) ∧
      y.size = x.size ∧
      (∀ a, (g a).isSome = (h a).isSome) ∧
      (∀ a e, h a = some (.ele e) → ∃ e2, g a = some (.ele e2) ∧ e2.value = e.value) ∧
      (∀ a bs, h a = some (.chars bs) → g a = some (.chars bs)) ∧
      (∀ a, a ≠ q → a ∉ cells.map Cell.node → g a = h a) := by
  obtain ⟨g, hg1, hg2, hg3⟩ := queue_reverse_spec fuel h q x cells hw hfuel
  have hnode : ∀ c ∈ cells, ∃ n m, h c.node = some (.ele ⟨some c.vptr, n⟩) ∧
      g c.node = some (.ele ⟨some c.vptr, m⟩) := by
    intro c hc
    obtain ⟨n, hn⟩ := linked_node h cells hw.1.links c hc
    obtain ⟨m, hm⟩ := linked_node g cells.reverse hg2.1.links c (List.mem_reverse.2 hc)
    exact ⟨n, m, hn, hm⟩
  refine ⟨g, _, hg1, hg2.1.header, hw.1.count.symm, ?_, ?_, ?_, hg3⟩
  · intro a
    by_cases haq : a = q
    · rw [haq, hg2.1.header, hw.1.header]
      rfl
    · by_cases han : a ∈ cells.map Cell.node
      · obtain ⟨c, hc, rfl⟩ := List.mem_map.1 han
        obtain ⟨n, m, hn, hm⟩ := hnode c hc
        rw [hn, hm]
        rfl
      · rw [hg3 a haq han]
  · intro a e he
    have haq : a ≠ q := by
      rintro rfl
      rw [hw.1.header] at he
      simp at he
    by_cases han : a ∈ cells.map Cell.node
    · obtain ⟨c, hc, rfl⟩ := List.mem_map.1 han
      obtain ⟨n, m, hn, hm⟩ := hnode c hc
      rw [hn] at he
      simp only [Option.some.injEq, Block.ele.injEq] at he
      exact ⟨_, hm, by rw [← he]⟩
    · exact ⟨e, by rw [hg3 a haq han, he], rfl⟩
  · intro a bs hb
    have haq : a ≠ q := by
      rintro rfl
      rw [hw.1.header] at hb
      simp at hb
    have han : a ∉ cells.map Cell.node := by
      intro han
      obtain ⟨c, hc, rfl⟩ := List.mem_map.1 han
      obtain ⟨n, m, hn, -⟩ := hnode c hc
      rw [hn] at hb
      simp at hb
    rw [hg3 a haq han, hb]

/-- C13 at a concrete queue of two elements, with another live block at
address 9. -/
theorem reverse_only_relinks_witness :
    ∃ g y,
      queue_reverse 1
        (fun a => if a = 0 then some (.queue ⟨some 1, some 3, 2⟩)
          else if a = 1 then some (.ele ⟨some 2, some 3⟩)
          else if a = 2 then some (.chars [97, 0])
          else if a = 3 then some (.ele ⟨some 4, none⟩)
          else if a = 4 then some (.chars [98, 0])
          else if a = 9 then some (.chars [1, 2, 3]) else none) (some 0) = .ok g ∧
      g 0 = some (.queue y) ∧ y.size = 2 ∧
      (∀ a, (g a).isSome =
        (if a = 0 then some (Block.queue ⟨some 1, some 3, 2⟩)
          else if a = 1 then some (.ele ⟨some 2, some 3⟩)
          else if a = 2 then some (.chars [97, 0])
          else if a = 3 then some (.ele ⟨some 4, none⟩)
          else if a = 4 then some (.chars [98, 0])
          else if a = 9 then some (.chars [1, 2, 3]) else none).isSome) ∧
      (∀ a e,
        (if a = 0 then some (Block.queue ⟨some 1, some 3, 2⟩)
          else if a = 1 then some (.ele ⟨some 2, some 3⟩)
          else if a = 2 then some (.chars [97, 0])
          else if a = 3 then some (.ele ⟨some 4, none⟩)
          else if a = 4 then some (.chars [98, 0])
          else if a = 9 then some (.chars [1, 2, 3]) else none) = some (.ele e) →
        ∃ e2, g a = some (.ele e2) ∧ e2.value = e.value) ∧
      (∀ a bs,
        (if a = 0 then some (Block.queue ⟨some 1, some 3, 2⟩)
          else if a = 1 then some (.ele ⟨some 2, some 3⟩)
          else if a = 2 then some (.chars [97, 0])
          else if a = 3 then some (.ele ⟨some 4, none⟩)
          else if a = 4 then some (.chars [98, 0])
          else if a = 9 then some (.chars [1, 2, 3]) else none) = some (.chars bs) →
        g a = some (.chars bs)) ∧
      (∀ a, a ≠ 0 → a ∉ [1, 3] →
        g a =
          (if a = 0 then some (Block.queue ⟨some 1, some 3, 2⟩)
          else if a = 1 then some (.ele ⟨some 2, some 3⟩)
          else if a = 2 then some (.chars [97, 0])
          else if a = 3 then some (.ele ⟨some 4, none⟩)
          else if a = 4 then some (.chars [98, 0])
          else if a = 9 then some (.chars [1, 2, 3]) else none)) :=
  reverse_only_relinks 1 _ 0 ⟨some 1, some 3, 2⟩ [⟨1, 2, [97, 0]⟩, ⟨3, 4, [98, 0]⟩]
    ⟨⟨rfl, rfl, ⟨rfl, rfl, rfl, rfl, trivial⟩, rfl, by decide, by decide, by decide,
      by decide⟩, rfl⟩
    (by decide)

/-- C14: every operation accepts a `NULL` queue pointer: `queue_insert_head`,
`queue_insert_tail` and `queue_remove_head` return `false` and change nothing,
`queue_size` returns 0, `queue_reverse` and `queue_free` return with the heap
unchanged, whatever the fuel.  On a queue whose `head` is `NULL`,
`queue_reverse` changes nothing and `queue_size` returns 0. -/
theorem null_queue_tolerated (h : Heap) (s : List Nat) (r1 r2 : Option Addr)
    (buf : Option (Nat → Nat)) (n fuel : Nat) :
    queue_insert_head h none s r1 r2 = .ok (false, h) ∧
    queue_insert_tail h none s r1 r2 = .ok (false, h) ∧
    queue_remove_head h none buf n = .ok (false, h, buf) ∧
    queue_size h none = .ok 0 ∧
    queue_reverse fuel h none = .ok h ∧
    queue_free fuel h none = .ok h ∧
    (∀ (q : Addr) (x : queue_t), h q = some (.queue x) → x.head = none →
      queue_reverse fuel h (some q) = .ok h ∧ queue_size h (some q) = .ok 0) := by
  refine ⟨rfl, rfl, rfl, rfl, rfl, rfl, ?_⟩
  intro q x hq hh
  constructor
  · simp [queue_reverse, loadQueue, hq, hh, bind, Except.bind, pure, Except.pure]
  · rw [queue_size_exec h q x hq, if_pos hh]

/-- C14 at a concrete heap: the new queue at address 0, whose `head` is
`NULL`. -/
theorem null_queue_tolerated_witness :
    queue_reverse 0 (queue_new emptyHeap (some 0)).2 (some 0) =
        .ok (queue_new emptyHeap (some 0)).2 ∧
      queue_size (queue_new emptyHeap (some 0)).2 (some 0) = .ok 0 :=
  (null_queue_tolerated (queue_new emptyHeap (some 0)).2 [97] none none none 0 0).2.2.2.2.2.2
    0 ⟨none, none, 0⟩ rfl rfl

/-- C16: `queue_insert_head` sets `tail` when `size` has become 1, whatever
`tail` holds.  On a queue that satisfies the invariants and holds one element
`c`, `queue_remove_head` returns `true` and leaves `head` `NULL`, `size` 0 and
`tail` still on the released element; a successful `queue_insert_head` after
it (the allocator may answer new addresses or the two addresses just released)
returns `true` and leaves a queue that satisfies all invariants: `head` and
`tail` are the new element, its link is `NULL`, `size` is 1 and the only
string is `s`. -/
theorem insert_head_after_emptying (h : Heap) (q p v : Addr) (x : queue_t) (c : Cell)
    (s : List Nat) (buf : Option (Nat → Nat)) (n : Nat) (hw : WF h q x [c])
    (hp : h p = none ∨ p = c.node ∨ p = c.vptr) (hpl : p < SIZE_MOD)
    (hv : h v = none ∨ v = c.node ∨ v = c.vptr) (hvl : v < SIZE_MOD) (hpv : v ≠ p) :
    ∃ g1 b1 g2, queue_remove_head h (some q) buf n = .ok (true, g1, b1) ∧
      g1 q = some (.queue ⟨none, some c.node, 0⟩) ∧ g1 c.node = none ∧
      queue_insert_head g1 (some q) s (some p) (some v) = .ok (true, g2) ∧
      WF g2 q ⟨some p, some p, 1⟩ [⟨p, v, text s ++ [0]⟩] ∧
      g2 p = some (.ele ⟨some v, none⟩) ∧
      elems [⟨p, v, text s ++ [0]⟩] = [text s] := by
  obtain ⟨g1, e1, c1, n1, n2, f1⟩ := remove_head_spec h q x c [] buf n hw.1
  have hxt : x.tail = some c.node := by
    rw [hw.2]
    rfl
  have hfree : ∀ a, (h a = none ∨ a = c.node ∨ a = c.vptr) → g1 a = none := by
    intro a ha
    by_cases ha1 : a = c.node
    · rw [ha1]; exact n1
    · by_cases ha2 : a = c.vptr
      · rw [ha2]; exact n2
      · have ha3 : h a = none := by
          rcases ha with ha | ha | ha
          · exact ha
          · exact absurd ha ha1
          · exact absurd ha ha2
        have haq : a ≠ q := by
          rintro rfl
          have := hw.1.header
          rw [ha3] at this
          simp at this
        rw [f1 a haq ha1 ha2, ha3]
  obtain ⟨g2, e2, w2, -⟩ := insert_head_spec g1 q p v _ [] s c1 (fun hne => absurd rfl hne)
    (hfree p hp) hpl (hfree v hv) hvl hpv
  refine ⟨g1, _, g2, e1, ?_, n1, e2, w2, w2.1.links.1, ?_⟩
  · rw [c1.header, hxt]
    rfl
  · simp [elems, text_text_zero]

/-- C16 at a concrete queue: `"a"` is removed and `"b"` is inserted at the
head, in the two blocks just released. -/
theorem insert_head_after_emptying_witness :
    ∃ g1 b1 g2,
      queue_remove_head
        (fun a => if a = 0 then some (.queue ⟨some 1, some 1, 1⟩)
          else if a = 1 then some (.ele ⟨some 2, none⟩)
          else if a = 2 then some (.chars [97, 0]) else none)
        (some 0) none 0 = .ok (true, g1, b1) ∧
      g1 0 = some (.queue ⟨none, some 1, 0⟩) ∧ g1 1 = none ∧
      queue_insert_head g1 (some 0) [98] (some 1) (some 2) = .ok (true, g2) ∧
      WF g2 0 ⟨some 1, some 1, 1⟩ [⟨1, 2, [98, 0]⟩] ∧
      g2 1 = some (.ele ⟨some 2, none⟩) ∧
      elems [⟨1, 2, [98, 0]⟩] = [[98]] :=
  insert_head_after_emptying _ 0 1 2 ⟨some 1, some 1, 1⟩ ⟨1, 2, [97, 0]⟩ [98] none 0
    ⟨⟨rfl, rfl, ⟨rfl, rfl, trivial⟩, rfl, by decide, by decide, by decide, by decide⟩, rfl⟩
    (Or.inr (Or.inl rfl)) (by decide) (Or.inr (Or.inr rfl)) (by decide) (by decide)

theorem take_min_length (l : List Nat) (k : Nat) : l.take (min l.length k) = l.take k := by
  by_cases hk : k ≤ l.length
  · rw [min_eq_right hk]
  · have hk2 : l.length ≤ k := by omega
    rw [min_eq_left hk2, List.take_of_length_le hk2, List.take_of_length_le (le_refl _)]

/-- C17: with a buffer of stated size `n ≥ 1`, a successful
`queue_remove_head` writes all `n` bytes of it: the first
`min (strlen v) (n - 1)` bytes are the first characters of the removed string
`v`, and every byte after them up to index `n - 1` is zero, whatever the
buffer held before; the memory after the buffer is untouched. -/
theorem remove_head_fills_buffer (h : Heap) (q : Addr) (x : queue_t) (c : Cell)
    (cs : List Cell) (b : Nat → Nat) (n : Nat) (hw : WF h q x (c :: cs)) (h1 : 1 ≤ n)
    (h2 : n < SIZE_MOD) :
    ∃ g b1, queue_remove_head h (some q) (some b) n = .ok (true, g, some b1) ∧
      (List.range n).map b1 =
        (text c.bytes).take (min (strlen c.bytes) (n - 1)) ++
          List.replicate (n - min (strlen c.bytes) (n - 1)) 0 ∧
      (∀ i, n ≤ i → b1 i = b i) := by
  obtain ⟨g, hg1, -, -, -, -⟩ := remove_head_spec h q x c cs (some b) n hw.1
  refine ⟨g, _, hg1, ?_, ?_⟩
  · rw [map_bufAfter c.bytes n b h1 h2]
    simp only [strlen]
    rw [take_min_length]
  · intro i hi
    rw [bufAfter_apply c.bytes n b h1 h2]
    have hi1 : ¬ i < n - 1 := by omega
    have hi2 : i ≠ n - 1 := by omega
    simp [hi1, hi2]

/-- C17 at a concrete queue: the string `"a"` removed into a buffer of 4 bytes
that held 7 in every byte. -/
theorem remove_head_fills_buffer_witness :
    ∃ g b1,
      queue_remove_head
        (fun a => if a = 0 then some (.queue ⟨some 1, some 1, 1⟩)
          else if a = 1 then some (.ele ⟨some 2, none⟩)
          else if a = 2 then some (.chars [97, 0]) else none)
        (some 0) (some (fun _ => 7)) 4 = .ok (true, g, some b1) ∧
      (List.range 4).map b1 = [97, 0, 0, 0] ∧
      (∀ i, 4 ≤ i → b1 i = 7) :=
  remove_head_fills_buffer _ 0 ⟨some 1, some 1, 1⟩ ⟨1, 2, [97, 0]⟩ [] (fun _ => 7) 4
    ⟨⟨rfl, rfl, ⟨rfl, rfl, trivial⟩, rfl, by decide, by decide, by decide, by decide⟩, rfl⟩
    (by decide) (by decide)

/-! ### The loops and their record -/

theorem reverse_loop_log_fst (fuel : Nat) :
    ∀ (h : Heap) (prev curr next : Option Addr),
      (reverse_loop_log fuel h prev curr next).map (fun r => (r.1, r.2.1, r.2.2.1)) =
        reverse_loop fuel h prev curr next := by
  induction fuel with
  | zero =>
    intro h prev curr next
    cases next <;> rfl
  | succ f ih =>
    intro h prev curr next
    cases next with
    | none => rfl
    | some n =>
      simp only [reverse_loop_log, reverse_loop, bind, Except.bind]
      cases setNext h curr prev with
      | error e => rfl
      | ok h1 =>
        dsimp only
        cases loadEle h1 (some n) with
        | error e => rfl
        | ok e =>
          dsimp only
          rw [← ih h1 curr (some n) e.next]
          cases reverse_loop_log f h1 curr (some n) e.next with
          | error e => rfl
          | ok r => rfl

theorem free_loop_log_fst (fuel : Nat) :
    ∀ (h : Heap) (p : Option Addr),
      (free_loop_log fuel h p).map Prod.fst = free_loop fuel h p := by
  induction fuel with
  | zero =>
    intro h p
    cases p <;> rfl
  | succ f ih =>
    intro h p
    cases p with
    | none => rfl
    | some a =>
      simp only [free_loop_log, free_loop, bind, Except.bind]
      cases loadEle h (some a) with
      | error e => rfl
      | ok e =>
        dsimp only
        cases free h e.value with
        | error e => rfl
        | ok h1 =>
          dsimp only
          cases free h1 (some a) with
          | error e => rfl
          | ok h2 =>
            dsimp only
            rw [← ih h2 e.next]
            cases free_loop_log f h2 e.next with
            | error e => rfl
            | ok r => rfl

/-- The function with a record computes the same heap as `queue_reverse`,
for every input. -/
theorem queue_reverse_log_fst (fuel : Nat) (h : Heap) (q : Option Addr) :
    (queue_reverse_log fuel h q).map Prod.fst = queue_reverse fuel h q := by
  cases q with
  | none => rfl
  | some a =>
    simp only [queue_reverse_log, queue_reverse, bind, Except.bind]
    cases loadQueue h (some a) with
    | error e => rfl
    | ok q0 =>
      dsimp only
      cases hh : q0.head with
      | none => rfl
      | some p =>
        dsimp only
        cases storeQueue h (some a) ⟨some p, some p, q0.size⟩ with
        | error e => rfl
        | ok h1 =>
          dsimp only
          cases loadQueue h1 (some a) with
          | error e => rfl
          | ok q1 =>
            dsimp only
            cases loadEle h1 q1.head with
            | error e => rfl
            | ok e =>
              dsimp only
              rw [← reverse_loop_log_fst fuel h1 none q1.head e.next]
              cases reverse_loop_log fuel h1 none q1.head e.next with
              | error e => rfl
              | ok r =>
                simp only [Except.map]
                cases setNext r.1 r.2.2.1 r.2.1 with
                | error e => rfl
                | ok h3 =>
                  dsimp only
                  cases loadQueue h3 (some a) with
                  | error e => rfl
                  | ok q2 =>
                    dsimp only
                    cases storeQueue h3 (some a) ⟨r.2.2.1, q2.tail, q2.size⟩ with
                    | error e => rfl
                    | ok h4 => rfl

/-- The function with a record computes the same heap as `queue_free`, for
every input. -/
theorem queue_free_log_fst (fuel : Nat) (h : Heap) (q : Option Addr) :
    (queue_free_log fuel h q).map Prod.fst = queue_free fuel h q := by
  cases q with
  | none => rfl
  | some a =>
    simp only [queue_free_log, queue_free, bind, Except.bind]
    cases loadQueue h (some a) with
    | error e => rfl
    | ok q0 =>
      dsimp only
      rw [← free_loop_log_fst fuel h q0.head]
      cases free_loop_log fuel h q0.head with
      | error e => rfl
      | ok r =>
        simp only [Except.map]
        cases free r.1 (some a) with
        | error e => rfl
        | ok h2 => rfl

theorem reverse_loop_log_done (fuel : Nat) (h : Heap) (prev curr : Option Addr) :
    reverse_loop_log fuel h prev curr none = .ok (h, prev, curr, []) := by
  cases fuel <;> rfl

theorem reverse_loop_log_step (fuel : Nat) (h : Heap) (prev : Option Addr) (c n : Addr)
    (e e2 : list_ele_t) (hc : h c = some (.ele e)) (hn : h n = some (.ele e2)) (hne : n ≠ c) :
    reverse_loop_log (fuel + 1) h prev (some c) (some n) =
      (reverse_loop_log fuel (Function.update h c (some (.ele ⟨e.value, prev⟩))) (some c)
        (some n) e2.next).map (fun r => (r.1, r.2.1, r.2.2.1, some c :: r.2.2.2)) := by
  simp only [reverse_loop_log, setNext, loadEle, storeEle, hc, bind, Except.bind,
    Function.update_apply, hne, if_false, hn]
  cases reverse_loop_log fuel (Function.update h c (some (.ele ⟨e.value, prev⟩))) (some c)
    (some n) e2.next <;> rfl

/-- The loop of `queue_reverse` with its record: as `reverse_loop_spec`; the
pointers through which `next` was assigned are the elements of `c :: rest` but
the last one, each once, in order. -/
theorem reverse_loop_log_spec (rest : List Cell) :
    ∀ (rev : List Cell) (c : Cell) (h : Heap) (fuel : Nat), rest.length ≤ fuel →
      linked h rev →
      h c.node = some (.ele ⟨some c.vptr, first rest⟩) → h c.vptr = some (.chars c.bytes) →
      linked h rest → ((rev ++ c :: rest).map Cell.node).Nodup →
      ∃ g d init, c :: rest = init ++ [d] ∧
        reverse_loop_log fuel h (first rev) (some c.node) (first rest) =
          .ok (g, first (init.reverse ++ rev), some d.node,
            init.map (fun a => some a.node)) ∧
        linked g (init.reverse ++ rev) ∧ g d.node = h d.node ∧
        (∀ a, a ∉ (c :: rest).map Cell.node → g a = h a) := by
  induction rest with
  | nil =>
    intro rev c h fuel _ hrev _ _ _ _
    exact ⟨h, c, [], rfl, reverse_loop_log_done _ _ _ _, hrev, rfl, fun _ _ => rfl⟩
  | cons c2 rest ih =>
    intro rev c h fuel hfuel hrev hc hcv hrest hnd
    obtain ⟨f, rfl⟩ : ∃ f, fuel = f + 1 := ⟨fuel - 1, by simp at hfuel; omega⟩
    obtain ⟨hc2, hc2v, hrest2⟩ := hrest
    have hperm : (((c :: rev) ++ c2 :: rest).map Cell.node).Nodup := by
      refine (List.Perm.nodup_iff ?_).1 hnd
      exact (List.perm_middle).map _
    have hnd2 := List.nodup_cons.1 (by simpa using hperm :
      (c.node :: (rev ++ c2 :: rest).map Cell.node).Nodup)
    have hne_node : ∀ d ∈ rev ++ c2 :: rest, d.node ≠ c.node := by
      intro d hd he
      exact hnd2.1 (he ▸ List.mem_map_of_mem _ hd)
    have hne_vptr : ∀ d : Cell, h d.vptr = some (.chars d.bytes) → d.vptr ≠ c.node := by
      intro d hd he
      rw [he, hc] at hd
      simp at hd
    have h2c : c2.node ≠ c.node :=
      hne_node c2 (List.mem_append_right _ (List.mem_cons_self _ _))
    let h1 : Heap := Function.update h c.node (some (.ele ⟨some c.vptr, first rev⟩))
    have hstep := reverse_loop_log_step f h (first rev) c.node c2.node _ _ hc hc2 h2c
    have hl1 : linked h1 (c :: rev) := by
      refine ⟨by simp [h1], ?_, ?_⟩
      · simp only [h1]
        rw [Function.update_noteq (hne_vptr c hcv)]
        exact hcv
      · refine linked_frame h _ rev hrev (fun d hd => ?_)
        simp only [h1]
        rw [Function.update_noteq (hne_node d (List.mem_append_left _ hd)),
          Function.update_noteq (hne_vptr d (linked_vptr h rev hrev d hd))]
        exact ⟨rfl, rfl⟩
    have hl2 : linked h1 rest := by
      refine linked_frame h _ rest hrest2 (fun d hd => ?_)
      simp only [h1]
      rw [Function.update_noteq
          (hne_node d (List.mem_append_right _ (List.mem_cons_of_mem _ hd))),
        Function.update_noteq (hne_vptr d (linked_vptr h rest hrest2 d hd))]
      exact ⟨rfl, rfl⟩
    have hc2n : h1 c2.node = some (.ele ⟨some c2.vptr, first rest⟩) := by
      simp only [h1]
      rw [Function.update_noteq h2c]
      exact hc2
    have hc2w : h1 c2.vptr = some (.chars c2.bytes) := by
      simp only [h1]
      rw [Function.update_noteq (hne_vptr c2 hc2v)]
      exact hc2v
    obtain ⟨g, d, init, hsplit, hrun, hlg, hgd, hframe⟩ :=
      ih (c :: rev) c2 h1 f (by simpa using hfuel) hl1 hc2n hc2w hl2 hperm
    have hd_mem : d ∈ c2 :: rest := by
      rw [hsplit]
      exact List.mem_append_right _ (List.mem_singleton_self _)
    refine ⟨g, d, c :: init, by rw [hsplit]; rfl, ?_, ?_, ?_, ?_⟩
    · have : first (c2 :: rest) = some c2.node := rfl
      rw [this, hstep]
      have hf : first (c :: rev) = some c.node := rfl
      rw [hf] at hrun
      simp only [h1] at hrun
      rw [hrun]
      simp [Except.map]
    · simpa using hlg
    · rw [hgd]
      exact Function.update_noteq (hne_node d (List.mem_append_right _ hd_mem)) _ _
    · intro a ha
      have ha1 : a ≠ c.node := by
        intro he
        exact ha (he ▸ List.mem_cons_self _ _)
      have ha2 : a ∉ (c2 :: rest).map Cell.node := by
        intro hm
        exact ha (List.mem_cons_of_mem _ hm)
      rw [hframe a ha2]
      exact Function.update_noteq ha1 _ _

theorem queue_reverse_log_exec (fuel : Nat) (h g : Heap) (q c d : Addr) (x y : queue_t)
    (e ed : list_ele_t) (prev : Option Addr) (log : List (Option Addr))
    (hq : h q = some (.queue x)) (hh : x.head = some c) (hc : h c = some (.ele e))
    (hloop : reverse_loop_log fuel
      (Function.update h q (some (.queue ⟨x.head, x.head, x.size⟩)))
      none (some c) e.next = .ok (g, prev, some d, log))
    (hd : g d = some (.ele ed)) (hgq : g q = some (.queue y)) :
    queue_reverse_log fuel h (some q) = .ok (Function.update
      (Function.update g d (some (.ele ⟨ed.value, prev⟩))) q
      (some (.queue ⟨some d, y.tail, y.size⟩)), log.length, log ++ [some d]) := by
  have hcq : c ≠ q := by
    rintro rfl
    rw [hq] at hc
    simp at hc
  have hdq : d ≠ q := by
    rintro rfl
    rw [hgq] at hd
    simp at hd
  have hloop2 : reverse_loop_log fuel
      (Function.update h q (some (.queue ⟨some c, some c, x.size⟩))) none (some c) e.next =
      .ok (g, prev, some d, log) := by
    simpa only [hh] using hloop
  simp [queue_reverse_log, loadQueue, storeQueue, loadEle, storeEle, setNext, hq, hh, hc, hcq,
    hdq, Ne.symm hdq, hloop2, hd, hgq, Function.update_apply, bind, Except.bind, pure,
    Except.pure]

/-- On a chain of `n ≥ 1` elements, `queue_reverse` with a record ends when
given fuel for `n - 1` runs of the loop body; the record holds `n - 1` runs and
the elements of the chain as the pointers through which `next` was
assigned. -/
theorem queue_reverse_log_spec (fuel : Nat) (h : Heap) (q : Addr) (x : queue_t) (c : Cell)
    (rest : List Cell) (hq : h q = some (.queue x)) (hh : x.head = first (c :: rest))
    (hl : linked h (c :: rest)) (hnd : ((c :: rest).map Cell.node).Nodup)
    (hfuel : rest.length ≤ fuel) :
    ∃ g, queue_reverse_log fuel h (some q) =
      .ok (g, rest.length, (c :: rest).map (fun a => some a.node)) := by
  have hnode_q : ∀ d ∈ c :: rest, d.node ≠ q := by
    intro d hd he
    obtain ⟨n, hn⟩ := linked_node h _ hl d hd
    rw [he, hq] at hn
    simp at hn
  have hvptr_q : ∀ d ∈ c :: rest, d.vptr ≠ q := by
    intro d hd he
    have hn := linked_vptr h _ hl d hd
    rw [he, hq] at hn
    simp at hn
  let h1 : Heap := Function.update h q (some (.queue ⟨x.head, x.head, x.size⟩))
  have hl1 : linked h1 (c :: rest) := by
    refine linked_frame h _ _ hl (fun d hd => ?_)
    simp only [h1]
    rw [Function.update_noteq (hnode_q d hd), Function.update_noteq (hvptr_q d hd)]
    exact ⟨rfl, rfl⟩
  obtain ⟨g, d, init, hsplit, hrun, -, hgd, hframe⟩ :=
    reverse_loop_log_spec rest [] c h1 fuel hfuel trivial hl1.1 hl1.2.1 hl1.2.2
      (by simpa using hnd)
  have hd_mem : d ∈ c :: rest := by
    rw [hsplit]
    exact List.mem_append_right _ (List.mem_singleton_self _)
  obtain ⟨nd, hn⟩ := linked_node h _ hl d hd_mem
  have hgd2 : g d.node = some (.ele ⟨some d.vptr, nd⟩) := by
    rw [hgd]
    simp only [h1]
    rw [Function.update_noteq (hnode_q d hd_mem)]
    exact hn
  have hgq : g q = some (.queue ⟨x.head, x.head, x.size⟩) := by
    rw [hframe q (by
      intro hm
      obtain ⟨d2, hd2, he⟩ := List.mem_map.1 hm
      exact hnode_q d2 hd2 he)]
    simp [h1]
  have hexec := queue_reverse_log_exec fuel h g q c.node d.node x _ _ _
    (first (init.reverse ++ [])) _ hq hh hl.1 (by simpa [first] using hrun) hgd2 hgq
  have hlen : init.length = rest.length := by
    have := congrArg List.length hsplit
    simp at this
    omega
  have hmap : init.map (fun a => some a.node) ++ [some d.node] =
      (c :: rest).map (fun a => some a.node) := by
    rw [hsplit]
    simp
  rw [List.length_map, hlen, hmap] at hexec
  exact ⟨_, hexec⟩

theorem free_loop_log_done (fuel : Nat) (h : Heap) :
    free_loop_log fuel h none = .ok (h, []) := by
  cases fuel <;> rfl

theorem free_loop_log_step (fuel : Nat) (h : Heap) (p v : Addr) (nxt : Option Addr)
    (bs : List Nat) (hp : h p = some (.ele ⟨some v, nxt⟩)) (hv : h v = some (.chars bs)) :
    free_loop_log (fuel + 1) h (some p) =
      (free_loop_log fuel (Function.update (Function.update h v none) p none) nxt).map
        (fun r => (r.1, p :: r.2)) := by
  have hpv : p ≠ v := by
    rintro rfl
    rw [hv] at hp
    simp at hp
  simp only [free_loop_log, loadEle, free, hp, hv, bind, Except.bind, Function.update_apply,
    hpv, if_false]
  cases free_loop_log fuel (Function.update (Function.update h v none) p none) nxt <;> rfl

/-- The loop of `queue_free` with its record, on a chain of elements that each
own their string: given fuel for one run of the body per element it ends; it
visits the elements of the chain in order, each once; every element and every
string is released and no other block is touched. -/
theorem free_loop_log_spec (cells : List Cell) :
    ∀ (h : Heap) (fuel : Nat), cells.length ≤ fuel → linked h cells →
      (cells.map Cell.node).Nodup → (cells.map Cell.vptr).Nodup →
      ∃ g, free_loop_log fuel h (first cells) = .ok (g, cells.map Cell.node) ∧
        (∀ c ∈ cells, g c.node = none ∧ g c.vptr = none) ∧
        (∀ a, a ∉ cells.map Cell.node → a ∉ cells.map Cell.vptr → g a = h a) := by
  induction cells with
  | nil =>
    intro h fuel _ _ _ _
    refine ⟨h, free_loop_log_done fuel h, ?_, fun _ _ _ => rfl⟩
    intro c hc
    exact absurd hc (List.not_mem_nil c)
  | cons c cs ih =>
    intro h fuel hfuel hl hn hv
    obtain ⟨f, rfl⟩ : ∃ f, fuel = f + 1 := ⟨fuel - 1, by simp at hfuel; omega⟩
    obtain ⟨l1, l2, l3⟩ := hl
    have hn2 : c.node ∉ cs.map Cell.node ∧ (cs.map Cell.node).Nodup := List.nodup_cons.1 hn
    have hv2 : c.vptr ∉ cs.map Cell.vptr ∧ (cs.map Cell.vptr).Nodup := List.nodup_cons.1 hv
    let h2 : Heap := Function.update (Function.update h c.vptr none) c.node none
    have hframe : ∀ a, a ≠ c.node → a ≠ c.vptr → h2 a = h a := by
      intro a a1 a2
      simp only [h2]
      rw [Function.update_noteq a1, Function.update_noteq a2]
    have hcs : ∀ d ∈ cs, d.node ≠ c.node ∧ d.node ≠ c.vptr ∧ d.vptr ≠ c.node ∧
        d.vptr ≠ c.vptr := by
      intro d hd
      obtain ⟨m, hm⟩ := linked_node h cs l3 d hd
      have hdv := linked_vptr h cs l3 d hd
      refine ⟨?_, ?_, ?_, ?_⟩
      · intro he
        exact hn2.1 (he ▸ List.mem_map_of_mem _ hd)
      · intro he
        rw [he, l2] at hm
        simp at hm
      · intro he
        rw [he, l1] at hdv
        simp at hdv
      · intro he
        exact hv2.1 (he ▸ List.mem_map_of_mem _ hd)
    have hl2 : linked h2 cs := by
      refine linked_frame h _ cs l3 (fun d hd => ?_)
      obtain ⟨a1, a2, a3, a4⟩ := hcs d hd
      exact ⟨hframe _ a1 a2, hframe _ a3 a4⟩
    obtain ⟨g, hg1, hg2, hg3⟩ := ih h2 f (by simpa using hfuel) hl2 hn2.2 hv2.2
    have hpv : c.node ≠ c.vptr := by
      intro he
      rw [he, l2] at l1
      simp at l1
    have hgc : g c.node = none ∧ g c.vptr = none := by
      have b1 : c.node ∉ cs.map Cell.vptr := by
        intro hm
        obtain ⟨d, hd, he⟩ := List.mem_map.1 hm
        exact (hcs d hd).2.2.1 he
      have b2 : c.vptr ∉ cs.map Cell.node := by
        intro hm
        obtain ⟨d, hd, he⟩ := List.mem_map.1 hm
        exact (hcs d hd).2.1 he
      constructor
      · rw [hg3 _ hn2.1 b1]
        simp [h2]
      · rw [hg3 _ b2 hv2.1]
        simp [h2, Function.update_apply, Ne.symm hpv]
    refine ⟨g, ?_, ?_, ?_⟩
    · have : first (c :: cs) = some c.node := rfl
      rw [this, free_loop_log_step f h c.node c.vptr (first cs) c.bytes l1 l2]
      simp only [h2] at hg1
      rw [hg1]
      rfl
    · intro d hd
      rcases List.mem_cons.1 hd with rfl | hm
      · exact hgc
      · exact hg2 d hm
    · intro a a1 a2
      have a3 : a ≠ c.node := fun he => a1 (he ▸ List.mem_cons_self _ _)
      have a4 : a ≠ c.vptr := fun he => a2 (he ▸ List.mem_cons_self _ _)
      rw [hg3 a (fun hm => a1 (List.mem_cons_of_mem _ hm))
        (fun hm => a2 (List.mem_cons_of_mem _ hm))]
      exact hframe a a3 a4

/-- Teardown of a queue whose elements each own their string: `queue_free`
with a record ends when given fuel for one run of the loop body per element;
it visits the elements in order, each once, and releases the header, every
element and every string, and nothing else. -/
theorem queue_free_log_spec (fuel : Nat) (h : Heap) (q : Addr) (x : queue_t)
    (cells : List Cell) (hq : h q = some (.queue x)) (hh : x.head = first cells)
    (hl : linked h cells) (hn : (cells.map Cell.node).Nodup)
    (hv : (cells.map Cell.vptr).Nodup) (hfuel : cells.length ≤ fuel) :
    ∃ g, queue_free_log fuel h (some q) = .ok (g, cells.map Cell.node) ∧
      g q = none ∧ (∀ c ∈ cells, g c.node = none ∧ g c.vptr = none) ∧
      (∀ a, a ≠ q → a ∉ cells.map Cell.node → a ∉ cells.map Cell.vptr → g a = h a) := by
  obtain ⟨g, hg1, hg2, hg3⟩ := free_loop_log_spec cells h fuel hfuel hl hn hv
  have hq1 : q ∉ cells.map Cell.node := by
    intro hm
    obtain ⟨d, hd, he⟩ := List.mem_map.1 hm
    obtain ⟨m, hm2⟩ := linked_node h cells hl d hd
    rw [he, hq] at hm2
    simp at hm2
  have hq2 : q ∉ cells.map Cell.vptr := by
    intro hm
    obtain ⟨d, hd, he⟩ := List.mem_map.1 hm
    have hm2 := linked_vptr h cells hl d hd
    rw [he, hq] at hm2
    simp at hm2
  have hgq : g q = some (.queue x) := by rw [hg3 q hq1 hq2, hq]
  refine ⟨Function.update g q none, ?_, by simp, ?_, ?_⟩
  · simp [queue_free_log, loadQueue, hq, hh, hg1, free, hgq, bind, Except.bind, pure,
      Except.pure]
  · intro c hc
    have c1 : c.node ≠ q := fun he => hq1 (he ▸ List.mem_map_of_mem _ hc)
    have c2 : c.vptr ≠ q := fun he => hq2 (he ▸ List.mem_map_of_mem _ hc)
    rw [Function.update_noteq c1, Function.update_noteq c2]
    exact hg2 c hc
  · intro a a1 a2 a3
    rw [Function.update_noteq a1]
    exact hg3 a a2 a3

/-! ### Fuel is the number of runs of the loop body -/

theorem reverse_loop_log_succ (f : Nat) :
    ∀ (h : Heap) (p c n : Option Addr)
      (res : Except Fault (Heap × Option Addr × Option Addr × List (Option Addr))),
      reverse_loop_log f h p c n = res → res ≠ .error .outOfFuel →
      reverse_loop_log (f + 1) h p c n = res := by
  induction f with
  | zero =>
    intro h p c n res hres hne
    cases n with
    | none => exact hres
    | some m => exact absurd hres.symm hne
  | succ f ih =>
    intro h p c n res hres hne
    cases n with
    | none => exact hres
    | some m =>
      rw [← hres] at hne ⊢
      simp only [reverse_loop_log, bind, Except.bind] at hne ⊢
      cases hs : setNext h c p with
      | error e => rfl
      | ok h1 =>
        rw [hs] at hne
        dsimp only at hne ⊢
        cases hl : loadEle h1 (some m) with
        | error e => rfl
        | ok e =>
          rw [hl] at hne
          dsimp only at hne ⊢
          have hinner : reverse_loop_log f h1 c (some m) e.next ≠ .error .outOfFuel := by
            intro hc
            rw [hc] at hne
            exact hne rfl
          rw [ih h1 c (some m) e.next _ rfl hinner]

theorem reverse_loop_log_le (f k : Nat) (h : Heap) (p c n : Option Addr)
    (res : Except Fault (Heap × Option Addr × Option Addr × List (Option Addr)))
    (hres : reverse_loop_log f h p c n = res) (hne : res ≠ .error .outOfFuel) :
    reverse_loop_log (f + k) h p c n = res := by
  induction k with
  | zero => exact hres
  | succ k ih => exact reverse_loop_log_succ (f + k) h p c n res ih hne

theorem reverse_loop_log_length (f : Nat) :
    ∀ (h : Heap) (p c n : Option Addr)
      (r : Heap × Option Addr × Option Addr × List (Option Addr)),
      reverse_loop_log f h p c n = .ok r → r.2.2.2.length ≤ f := by
  induction f with
  | zero =>
    intro h p c n r hr
    cases n with
    | none =>
      simp only [reverse_loop_log, Except.ok.injEq] at hr
      rw [← hr]
      exact le_refl _
    | some m => simp [reverse_loop_log] at hr
  | succ f ih =>
    intro h p c n r hr
    cases n with
    | none =>
      simp only [reverse_loop_log, Except.ok.injEq] at hr
      rw [← hr]
      exact Nat.zero_le _
    | some m =>
      unfold reverse_loop_log at hr
      obtain ⟨h1, -, hr⟩ := bind_ok_elim _ _ _ hr
      obtain ⟨e, -, hr⟩ := bind_ok_elim _ _ _ hr
      obtain ⟨r2, hr2, hr⟩ := bind_ok_elim _ _ _ hr
      simp only [pure, Except.pure, Except.ok.injEq] at hr
      rw [← hr]
      have := ih _ _ _ _ _ hr2
      simp only [List.length_cons]
      omega

theorem queue_reverse_log_le (f k : Nat) (h : Heap) (q : Option Addr)
    (res : Except Fault (Heap × Nat × List (Option Addr)))
    (hres : queue_reverse_log f h q = res) (hne : res ≠ .error .outOfFuel) :
    queue_reverse_log (f + k) h q = res := by
  cases q with
  | none => exact hres
  | some a =>
    rw [← hres] at hne ⊢
    simp only [queue_reverse_log, bind, Except.bind] at hne ⊢
    cases hq : loadQueue h (some a) with
    | error e => rfl
    | ok q0 =>
      rw [hq] at hne
      dsimp only at hne ⊢
      cases hh : q0.head with
      | none => rfl
      | some p =>
        rw [hh] at hne
        dsimp only at hne ⊢
        cases hs : storeQueue h (some a) ⟨some p, some p, q0.size⟩ with
        | error e => rfl
        | ok h1 =>
          rw [hs] at hne
          dsimp only at hne ⊢
          cases hq1 : loadQueue h1 (some a) with
          | error e => rfl
          | ok q1 =>
            rw [hq1] at hne
            dsimp only at hne ⊢
            cases hl : loadEle h1 q1.head with
            | error e => rfl
            | ok e =>
              rw [hl] at hne
              dsimp only at hne ⊢
              have hinner : reverse_loop_log f h1 none q1.head e.next ≠ .error .outOfFuel := by
                intro hc
                rw [hc] at hne
                exact hne rfl
              rw [reverse_loop_log_le f k h1 none q1.head e.next _ rfl hinner]

theorem queue_reverse_log_count (f : Nat) (h : Heap) (q : Option Addr) (g : Heap)
    (cnt : Nat) (w : List (Option Addr))
    (hr : queue_reverse_log f h q = .ok (g, cnt, w)) : cnt ≤ f := by
  cases q with
  | none =>
    simp only [queue_reverse_log, Except.ok.injEq, Prod.mk.injEq] at hr
    rw [← hr.2.1]
    exact Nat.zero_le _
  | some a =>
    unfold queue_reverse_log at hr
    dsimp only at hr
    obtain ⟨q0, -, hr⟩ := bind_ok_elim _ _ _ hr
    cases hh : q0.head with
    | none =>
      rw [hh] at hr
      simp only [pure, Except.pure, Except.ok.injEq, Prod.mk.injEq] at hr
      rw [← hr.2.1]
      exact Nat.zero_le _
    | some p =>
      rw [hh] at hr
      dsimp only at hr
      obtain ⟨h1, -, hr⟩ := bind_ok_elim _ _ _ hr
      obtain ⟨q1, -, hr⟩ := bind_ok_elim _ _ _ hr
      obtain ⟨e, -, hr⟩ := bind_ok_elim _ _ _ hr
      obtain ⟨r, hloop, hr⟩ := bind_ok_elim _ _ _ hr
      obtain ⟨h3, -, hr⟩ := bind_ok_elim _ _ _ hr
      obtain ⟨q2, -, hr⟩ := bind_ok_elim _ _ _ hr
      obtain ⟨h4, -, hr⟩ := bind_ok_elim _ _ _ hr
      simp only [pure, Except.pure, Except.ok.injEq, Prod.mk.injEq] at hr
      rw [← hr.2.1]
      exact reverse_loop_log_length f _ _ _ _ r hloop

theorem free_loop_log_succ (f : Nat) :
    ∀ (h : Heap) (p : Option Addr) (res : Except Fault (Heap × List Addr)),
      free_loop_log f h p = res → res ≠ .error .outOfFuel →
      free_loop_log (f + 1) h p = res := by
  induction f with
  | zero =>
    intro h p res hres hne
    cases p with
    | none => exact hres
    | some m => exact absurd hres.symm hne
  | succ f ih =>
    intro h p res hres hne
    cases p with
    | none => exact hres
    | some m =>
      rw [← hres] at hne ⊢
      simp only [free_loop_log, bind, Except.bind] at hne ⊢
      cases hl : loadEle h (some m) with
      | error e => rfl
      | ok e =>
        rw [hl] at hne
        dsimp only at hne ⊢
        cases hf1 : free h e.value with
        | error e => rfl
        | ok h1 =>
          rw [hf1] at hne
          dsimp only at hne ⊢
          cases hf2 : free h1 (some m) with
          | error e => rfl
          | ok h2 =>
            rw [hf2] at hne
            dsimp only at hne ⊢
            have hinner : free_loop_log f h2 e.next ≠ .error .outOfFuel := by
              intro hc
              rw [hc] at hne
              exact hne rfl
            rw [ih h2 e.next _ rfl hinner]

theorem free_loop_log_le (f k : Nat) (h : Heap) (p : Option Addr)
    (res : Except Fault (Heap × List Addr))
    (hres : free_loop_log f h p = res) (hne : res ≠ .error .outOfFuel) :
    free_loop_log (f + k) h p = res := by
  induction k with
  | zero => exact hres
  | succ k ih => exact free_loop_log_succ (f + k) h p res ih hne

theorem free_loop_log_length (f : Nat) :
    ∀ (h : Heap) (p : Option Addr) (r : Heap × List Addr),
      free_loop_log f h p = .ok r → r.2.length ≤ f := by
  induction f with
  | zero =>
    intro h p r hr
    cases p with
    | none =>
      simp only [free_loop_log, Except.ok.injEq] at hr
      rw [← hr]
      exact le_refl _
    | some m => simp [free_loop_log] at hr
  | succ f ih =>
    intro h p r hr
    cases p with
    | none =>
      simp only [free_loop_log, Except.ok.injEq] at hr
      rw [← hr]
      exact Nat.zero_le _
    | some m =>
      unfold free_loop_log at hr
      obtain ⟨e, -, hr⟩ := bind_ok_elim _ _ _ hr
      obtain ⟨h1, -, hr⟩ := bind_ok_elim _ _ _ hr
      obtain ⟨h2, -, hr⟩ := bind_ok_elim _ _ _ hr
      obtain ⟨r2, hr2, hr⟩ := bind_ok_elim _ _ _ hr
      simp only [pure, Except.pure, Except.ok.injEq] at hr
      rw [← hr]
      have := ih _ _ _ hr2
      simp only [List.length_cons]
      omega

theorem queue_free_log_le (f k : Nat) (h : Heap) (q : Option Addr)
    (res : Except Fault (Heap × List Addr))
    (hres : queue_free_log f h q = res) (hne : res ≠ .error .outOfFuel) :
    queue_free_log (f + k) h q = res := by
  cases q with
  | none => exact hres
  | some a =>
    rw [← hres] at hne ⊢
    simp only [queue_free_log, bind, Except.bind] at hne ⊢
    cases hq : loadQueue h (some a) with
    | error e => rfl
    | ok q0 =>
      rw [hq] at hne
      dsimp only at hne ⊢
      have hinner : free_loop_log f h q0.head ≠ .error .outOfFuel := by
        intro hc
        rw [hc] at hne
        exact hne rfl
      rw [free_loop_log_le f k h q0.head _ rfl hinner]

theorem queue_free_log_count (f : Nat) (h : Heap) (q : Option Addr) (g : Heap)
    (w : List Addr) (hr : queue_free_log f h q = .ok (g, w)) : w.length ≤ f := by
  cases q with
  | none =>
    simp only [queue_free_log, Except.ok.injEq, Prod.mk.injEq] at hr
    rw [← hr.2]
    exact Nat.zero_le _
  | some a =>
    unfold queue_free_log at hr
    dsimp only at hr
    obtain ⟨q0, -, hr⟩ := bind_ok_elim _ _ _ hr
    obtain ⟨r, hloop, hr⟩ := bind_ok_elim _ _ _ hr
    obtain ⟨h2, -, hr⟩ := bind_ok_elim _ _ _ hr
    simp only [pure, Except.pure, Except.ok.injEq, Prod.mk.injEq] at hr
    rw [← hr.2]
    exact free_loop_log_length f _ _ r hloop

/-- With fuel for fewer than `n - 1` runs of the loop body, `queue_reverse`
does not finish on a chain of `n` elements. -/
theorem queue_reverse_out_of_fuel (k : Nat) (h : Heap) (q : Addr) (x : queue_t) (c : Cell)
    (rest : List Cell) (hq : h q = some (.queue x)) (hh : x.head = first (c :: rest))
    (hl : linked h (c :: rest)) (hnd : ((c :: rest).map Cell.node).Nodup)
    (hk : k < rest.length) : queue_reverse k h (some q) = .error .outOfFuel := by
  obtain ⟨g, hg⟩ := queue_reverse_log_spec rest.length h q x c rest hq hh hl hnd (le_refl _)
  have hres : queue_reverse_log k h (some q) = .error .outOfFuel := by
    by_contra hne
    have h1 := queue_reverse_log_le k (rest.length - k) h (some q) _ rfl hne
    rw [show k + (rest.length - k) = rest.length by omega, hg] at h1
    have h2 := queue_reverse_log_count k h (some q) g rest.length _ h1.symm
    omega
  rw [← queue_reverse_log_fst, hres]
  rfl

/-- With fuel for fewer than `n` runs of the loop body, `queue_free` does not
finish on a chain of `n` elements. -/
theorem queue_free_out_of_fuel (k : Nat) (h : Heap) (q : Addr) (x : queue_t)
    (cells : List Cell) (hq : h q = some (.queue x)) (hh : x.head = first cells)
    (hl : linked h cells) (hn : (cells.map Cell.node).Nodup)
    (hv : (cells.map Cell.vptr).Nodup) (hk : k < cells.length) :
    queue_free k h (some q) = .error .outOfFuel := by
  obtain ⟨g, hg, -⟩ := queue_free_log_spec cells.length h q x cells hq hh hl hn hv (le_refl _)
  have hres : queue_free_log k h (some q) = .error .outOfFuel := by
    by_contra hne
    have h1 := queue_free_log_le k (cells.length - k) h (some q) _ rfl hne
    rw [show k + (cells.length - k) = cells.length by omega, hg] at h1
    have h2 := queue_free_log_count k h (some q) g _ h1.symm
    simp only [List.length_map] at h2
    omega
  rw [← queue_free_log_fst, hres]
  rfl

/-! ### Teardown and termination -/

/-- C15 (fails on the code): the run `queue_new`, `queue_insert_tail "a"`,
`queue_remove_head`, `queue_insert_tail "b"`, `queue_free`, from the empty
heap.  The removal leaves `tail` on the released element (the defect of C2 and
C3).  When the allocator answers the two addresses just released, the second
insertion returns `true` but never sets `head`, so `queue_free` (with any
fuel) finds no element: it releases the header only, and the element at
address 1 and the string `"b"` at address 2 stay allocated.  When the
allocator answers new addresses, the second insertion writes through the
released element, an invalid access. -/
theorem stale_tail_leaks :
    ∃ h2 h3 b h4,
      queue_insert_tail (queue_new emptyHeap (some 0)).2 (some 0) [97] (some 1) (some 2) =
        .ok (true, h2) ∧
      queue_remove_head h2 (some 0) none 0 = .ok (true, h3, b) ∧
      queue_insert_tail h3 (some 0) [98] (some 1) (some 2) = .ok (true, h4) ∧
      (∀ fuel, ∃ h5, queue_free fuel h4 (some 0) = .ok h5 ∧ h5 0 = none ∧
        h5 1 = some (.ele ⟨some 2, some 1⟩) ∧ h5 2 = some (.chars [98, 0])) ∧
      queue_insert_tail h3 (some 0) [98] (some 3) (some 4) = .error .invalidAccess :=
  ⟨_, _, _, _, rfl, rfl, rfl,
    fun fuel => ⟨_, by cases fuel <;> rfl, rfl, rfl, rfl⟩, rfl⟩

/-- C18: on a queue whose chain from `head` has `n ≥ 1` distinct elements,
each with its own string, both loops end.  `queue_reverse`, given fuel for
`n - 1` runs of its loop body, returns after exactly `n - 1` runs (with less
fuel it does not finish), and `next` is assigned through each element of the
chain exactly once, in the order of the chain (`n` assignments); `queue_free`,
given fuel for `n` runs, returns after visiting each element of the chain
exactly once, in order (with less fuel it does not finish).  The functions
with a record return the heaps of `queue_reverse` and `queue_free`. -/
theorem loops_terminate (fr ff : Nat) (h : Heap) (q : Addr) (x : queue_t)
    (cells : List Cell)
    (hq : h q = some (.queue x)) (hh : x.head = first cells) (hl : linked h cells)
    (hn : (cells.map Cell.node).Nodup) (hv : (cells.map Cell.vptr).Nodup)
    (hne : cells ≠ []) (hfr : cells.length - 1 ≤ fr) (hff : cells.length ≤ ff) :
    (∃ g, queue_reverse_log fr h (some q) =
        .ok (g, cells.length - 1, cells.map (fun a => some a.node)) ∧
      queue_reverse fr h (some q) = .ok g) ∧
    (∀ k, k < cells.length - 1 → queue_reverse k h (some q) = .error .outOfFuel) ∧
    (∃ g, queue_free_log ff h (some q) = .ok (g, cells.map Cell.node) ∧
      queue_free ff h (some q) = .ok g) ∧
    (∀ k, k < cells.length → queue_free k h (some q) = .error .outOfFuel) := by
  refine ⟨?_, ?_, ?_, ?_⟩
  · cases cells with
    | nil => exact absurd rfl hne
    | cons c rest =>
      obtain ⟨g, hg⟩ := queue_reverse_log_spec fr h q x c rest hq hh hl hn
        (by simpa using hfr)
      refine ⟨g, by simpa using hg, ?_⟩
      rw [← queue_reverse_log_fst, hg]
      rfl
  · intro k hk
    cases cells with
    | nil => exact absurd rfl hne
    | cons c rest =>
      exact queue_reverse_out_of_fuel k h q x c rest hq hh hl hn (by simpa using hk)
  · obtain ⟨g, hg, -⟩ := queue_free_log_spec ff h q x cells hq hh hl hn hv hff
    refine ⟨g, hg, ?_⟩
    rw [← queue_free_log_fst, hg]
    rfl
  · intro k hk
    exact queue_free_out_of_fuel k h q x cells hq hh hl hn hv hk

/-- C18 at a concrete queue of three elements: two runs of the loop of
`queue_reverse` and three assignments of `next`; three elements visited by
`queue_free`. -/
theorem loops_terminate_witness :
    (∃ g,
      queue_reverse_log 2
        (fun a => if a = 0 then some (.queue ⟨some 1, some 5, 3⟩)
          else if a = 1 then some (.ele ⟨some 2, some 3⟩)
          else if a = 2 then some (.chars [97, 0])
          else if a = 3 then some (.ele ⟨some 4, some 5⟩)
          else if a = 4 then some (.chars [98, 0])
          else if a = 5 then some (.ele ⟨some 6, none⟩)
          else if a = 6 then some (.chars [99, 0]) else none) (some 0) =
        .ok (g, 2, [some 1, some 3, some 5]) ∧
      queue_reverse 2
        (fun a => if a = 0 then some (.queue ⟨some 1, some 5, 3⟩)
          else if a = 1 then some (.ele ⟨some 2, some 3⟩)
          else if a = 2 then some (.chars [97, 0])
          else if a = 3 then some (.ele ⟨some 4, some 5⟩)
          else if a = 4 then some (.chars [98, 0])
          else if a = 5 then some (.ele ⟨some 6, none⟩)
          else if a = 6 then some (.chars [99, 0]) else none) (some 0) = .ok g) ∧
    (∀ k, k < 3 - 1 →
      queue_reverse k
        (fun a => if a = 0 then some (.queue ⟨some 1, some 5, 3⟩)
          else if a = 1 then some (.ele ⟨some 2, some 3⟩)
          else if a = 2 then some (.chars [97, 0])
          else if a = 3 then some (.ele ⟨some 4, some 5⟩)
          else if a = 4 then some (.chars [98, 0])
          else if a = 5 then some (.ele ⟨some 6, none⟩)
          else if a = 6 then some (.chars [99, 0]) else none) (some 0) = .error .outOfFuel) ∧
    (∃ g,
      queue_free_log 3
        (fun a => if a = 0 then some (.queue ⟨some 1, some 5, 3⟩)
          else if a = 1 then some (.ele ⟨some 2, some 3⟩)
          else if a = 2 then some (.chars [97, 0])
          else if a = 3 then some (.ele ⟨some 4, some 5⟩)
          else if a = 4 then some (.chars [98, 0])
          else if a = 5 then some (.ele ⟨some 6, none⟩)
          else if a = 6 then some (.chars [99, 0]) else none) (some 0) =
        .ok (g, [1, 3, 5]) ∧
      queue_free 3
        (fun a => if a = 0 then some (.queue ⟨some 1, some 5, 3⟩)
          else if a = 1 then some (.ele ⟨some 2, some 3⟩)
          else if a = 2 then some (.chars [97, 0])
          else if a = 3 then some (.ele ⟨some 4, some 5⟩)
          else if a = 4 then some (.chars [98, 0])
          else if a = 5 then some (.ele ⟨some 6, none⟩)
          else if a = 6 then some (.chars [99, 0]) else none) (some 0) = .ok g) ∧
    (∀ k, k < 3 →
      queue_free k
        (fun a => if a = 0 then some (.queue ⟨some 1, some 5, 3⟩)
          else if a = 1 then some (.ele ⟨some 2, some 3⟩)
          else if a = 2 then some (.chars [97, 0])
          else if a = 3 then some (.ele ⟨some 4, some 5⟩)
          else if a = 4 then some (.chars [98, 0])
          else if a = 5 then some (.ele ⟨some 6, none⟩)
          else if a = 6 then some (.chars [99, 0]) else none) (some 0) = .error .outOfFuel) :=
  loops_terminate 2 3 _ 0 ⟨some 1, some 5, 3⟩
    [⟨1, 2, [97, 0]⟩, ⟨3, 4, [98, 0]⟩, ⟨5, 6, [99, 0]⟩]
    rfl rfl ⟨rfl, rfl, rfl, rfl, rfl, rfl, trivial⟩ (by decide) (by decide) (by decide)
    (by decide) (by decide)

end Queue
